import Mathlib

/-!
# Verification of the expression-tree saturation optimizer

This file gives a shallow embedding of `eqsat.py`: the tokenizer, the
recursive-descent parser (`parse_expression` with its inner `parse_factor`,
`parse_term`, `parse_sum` and their `while` loops), the printer
(`print_ast`), the rewrite pass (`rewrite`), the saturation driver
(`saturation`) and the cost model (`cost`), together with theorems that
settle the specification claims about them.

Conventions of the embedding:
* Python strings become `String`; `str.isdigit` / `str.isalpha` become
  `pyIsDigit` / `pyIsAlpha` (the tokenizer only ever produces ASCII runs);
  `int(...)` on digit strings becomes `pyInt` and `str(...)` on the folded
  integers becomes `toString : Nat → String`.
* The `ASTNode` class becomes an inductive type.  The Python object uses
  `left is None` as the leaf discriminator and the parser only builds
  leaves (both children `None`) or full operator nodes, so the inductive
  type has exactly those two shapes.  The faithful partial model `PyNode`
  (with optional children, used for the no-failure claim) and the
  pointer-heap model (used for the deep-copy frame claim) appear further
  below.
* Index errors and `raise ValueError` in the parser become the `PErr`
  error type returned through `Except`.
* The parser's `while` loops become the tail-recursive `parse_term_loop` /
  `parse_sum_loop`; their results carry the bound `i ≤ result` (resp.
  `i < result` for the three parse levels), which is exactly the progress
  fact needed for termination of the mutual recursion.
-/

/-- `int(s)` on a decimal-digit string (the only use the source makes of `int`). -/
def pyInt (s : String) : Nat :=
  s.data.foldl (fun a c => 10 * a + (c.toNat - 48)) 0

/-- Python `str.isdigit()` on the ASCII strings the tokenizer produces. -/
def pyIsDigit (s : String) : Bool :=
  !s.data.isEmpty && s.data.all Char.isDigit

/-- Python `str.isalpha()` on the ASCII strings the tokenizer produces. -/
def pyIsAlpha (s : String) : Bool :=
  !s.data.isEmpty && s.data.all (fun c => c.isUpper || c.isLower)

/-- The single-character alternative `[+*/()-]` of the token regex. -/
def isOpChar (c : Char) : Bool :=
  c = '+' || c = '*' || c = '/' || c = '(' || c = ')' || c = '-'

theorem length_dropWhile_le (p : Char → Bool) (cs : List Char) :
    (cs.dropWhile p).length ≤ cs.length := by
  induction cs with
  | nil => simp
  | cons c cs ih =>
    simp only [List.dropWhile]
    split
    · simp only [List.length_cons]; omega
    · simp

/-- `re.findall(r'\d+|[a-zA-Z]+|[+*/()-]', expr)` over the character list:
at each position the scanner takes the longest digit run, else the longest
letter run, else a single operator character, and silently skips anything
else. -/
def tokenizeChars : List Char → List String
  | [] => []
  | c :: cs =>
    if c.isDigit then
      String.mk (c :: cs.takeWhile Char.isDigit) :: tokenizeChars (cs.dropWhile Char.isDigit)
    else if c.isUpper || c.isLower then
      String.mk (c :: cs.takeWhile (fun x => x.isUpper || x.isLower)) ::
        tokenizeChars (cs.dropWhile (fun x => x.isUpper || x.isLower))
    else if isOpChar c then
      String.mk [c] :: tokenizeChars cs
    else
      tokenizeChars cs
termination_by cs => cs.length
decreasing_by
  · have := length_dropWhile_le Char.isDigit cs
    simp only [List.length_cons]; omega
  · have := length_dropWhile_le (fun x => x.isUpper || x.isLower) cs
    simp only [List.length_cons]; omega
  · simp
  · simp

/-- `tokenize(expr)` from the source. -/
def tokenize (expr : String) : List String := tokenizeChars expr.data

/-- The `ASTNode` class: a leaf holds a textual value and no children, an
operator node holds a value and two children.  The parser only ever builds
these two shapes (`ASTNode(token)` and `ASTNode(op, node, right)`). -/
inductive ASTNode where
  | leaf (value : String)
  | node (value : String) (left right : ASTNode)
deriving DecidableEq

/-- The `value` attribute, defined on both shapes just as in Python. -/
def ASTNode.value : ASTNode → String
  | .leaf v => v
  | .node v _ _ => v

/-- Errors the parser can raise: `tokens[i]` out of range (`IndexError`),
or the explicit `raise ValueError("Unexpected token: " + token)`. -/
inductive PErr where
  | indexError
  | unexpectedToken (t : String)
deriving DecidableEq

mutual

/-- `parse_factor(i)`: a digit/alpha token makes a leaf, `(` recurses into
the sum level and then skips one token (the position `j+1`) without
checking that it is `)`, and anything else raises `ValueError`. -/
def parse_factor (tokens : List String) (i : Nat) :
    Except PErr {p : ASTNode × Nat // i < p.2} :=
  match htok : tokens[i]? with
  | none => .error .indexError
  | some token =>
    if pyIsDigit token || pyIsAlpha token then
      .ok ⟨(.leaf token, i + 1), by omega⟩
    else if token = "(" then
      match parse_sum tokens (i + 1) with
      | .error e => .error e
      | .ok ⟨(n, j), hj⟩ => .ok ⟨(n, j + 1), by omega⟩
    else
      .error (.unexpectedToken token)
termination_by (tokens.length - i) * 4
decreasing_by
  have : i < tokens.length := by
    by_contra h
    rw [List.getElem?_eq_none (by omega)] at htok
    exact absurd htok (by simp)
  omega

/-- The `while i < len(tokens) and tokens[i] == '*'` loop of `parse_term`. -/
def parse_term_loop (tokens : List String) (acc : ASTNode) (i : Nat) :
    Except PErr {p : ASTNode × Nat // i ≤ p.2} :=
  match htok : tokens[i]? with
  | some tok =>
    if tok = "*" then
      match parse_factor tokens (i + 1) with
      | .error e => .error e
      | .ok ⟨(right, j), hj⟩ =>
        match parse_term_loop tokens (.node "*" acc right) j with
        | .error e => .error e
        | .ok ⟨(n, k), hk⟩ => .ok ⟨(n, k), by omega⟩
    else
      .ok ⟨(acc, i), le_refl i⟩
  | none => .ok ⟨(acc, i), le_refl i⟩
termination_by (tokens.length - i) * 4 + 1
decreasing_by
  · have : i < tokens.length := by
      by_contra h
      rw [List.getElem?_eq_none (by omega)] at htok
      exact absurd htok (by simp)
    omega
  · have hi : i < tokens.length := by
      by_contra h
      rw [List.getElem?_eq_none (by omega)] at htok
      exact absurd htok (by simp)
    omega

/-- `parse_term(i)`: one factor, then the `*` loop. -/
def parse_term (tokens : List String) (i : Nat) :
    Except PErr {p : ASTNode × Nat // i < p.2} :=
  match parse_factor tokens i with
  | .error e => .error e
  | .ok ⟨(n, j), hj⟩ =>
    match parse_term_loop tokens n j with
    | .error e => .error e
    | .ok ⟨(m, k), hk⟩ => .ok ⟨(m, k), by omega⟩
termination_by (tokens.length - i) * 4 + 2
decreasing_by
  · omega
  · omega

/-- The `while i < len(tokens) and tokens[i] == '+'` loop of `parse_sum`. -/
def parse_sum_loop (tokens : List String) (acc : ASTNode) (i : Nat) :
    Except PErr {p : ASTNode × Nat // i ≤ p.2} :=
  match htok : tokens[i]? with
  | some tok =>
    if tok = "+" then
      match parse_term tokens (i + 1) with
      | .error e => .error e
      | .ok ⟨(right, j), hj⟩ =>
        match parse_sum_loop tokens (.node "+" acc right) j with
        | .error e => .error e
        | .ok ⟨(n, k), hk⟩ => .ok ⟨(n, k), by omega⟩
    else
      .ok ⟨(acc, i), le_refl i⟩
  | none => .ok ⟨(acc, i), le_refl i⟩
termination_by (tokens.length - i) * 4 + 1
decreasing_by
  · have : i < tokens.length := by
      by_contra h
      rw [List.getElem?_eq_none (by omega)] at htok
      exact absurd htok (by simp)
    omega
  · have hi : i < tokens.length := by
      by_contra h
      rw [List.getElem?_eq_none (by omega)] at htok
      exact absurd htok (by simp)
    omega

/-- `parse_sum(i)`: one term, then the `+` loop. -/
def parse_sum (tokens : List String) (i : Nat) :
    Except PErr {p : ASTNode × Nat // i < p.2} :=
  match parse_term tokens i with
  | .error e => .error e
  | .ok ⟨(n, j), hj⟩ =>
    match parse_sum_loop tokens n j with
    | .error e => .error e
    | .ok ⟨(m, k), hk⟩ => .ok ⟨(m, k), by omega⟩
termination_by (tokens.length - i) * 4 + 3
decreasing_by
  · omega
  · omega

end

/-- `parse_expression(tokens)`: `node, _ = parse_sum(0); return node` —
the final index is dropped, so trailing unconsumed tokens are ignored. -/
def parse_expression (tokens : List String) : Except PErr ASTNode :=
  match parse_sum tokens 0 with
  | .error e => .error e
  | .ok ⟨(n, _), _⟩ => .ok n

/-- `print_ast(node)`. -/
def print_ast : ASTNode → String
  | .leaf v => v
  | .node v l r => "(" ++ print_ast l ++ " " ++ v ++ " " ++ print_ast r ++ ")"

/-- The rule block of `rewrite`, applied to an operator value and the two
already-rewritten children, in the source's order: `x+0`, `0+x`, `x*1`,
`1*x`, `x*0`/`0*x`, constant folding, distributive expansion, otherwise the
node itself.  The Python guards compare `node.right.value == '+'` before
reading `node.right.left` / `node.right.right`; a leaf whose value is `"+"`
cannot arise from the parser (leaf tokens are digit or alpha runs), so the
distributive branch matches an operator node. -/
def applyRules (v : String) (L R : ASTNode) : ASTNode :=
  if v = "+" && R.value = "0" then L
  else if v = "+" && L.value = "0" then R
  else if v = "*" && R.value = "1" then L
  else if v = "*" && L.value = "1" then R
  else if v = "*" && (L.value = "0" || R.value = "0") then .leaf "0"
  else if pyIsDigit L.value && pyIsDigit R.value && v = "+" then
    .leaf (toString (pyInt L.value + pyInt R.value))
  else if pyIsDigit L.value && pyIsDigit R.value && v = "*" then
    .leaf (toString (pyInt L.value * pyInt R.value))
  else
    match R with
    | .node "+" b c => if v = "*" then .node "+" (.node "*" L b) (.node "*" L c) else .node v L R
    | _ => .node v L R

/-- `rewrite(node)`: a leaf is returned unchanged; otherwise both children
are rewritten first and then the rule block is applied. -/
def rewrite : ASTNode → ASTNode
  | .leaf v => .leaf v
  | .node v l r => applyRules v (rewrite l) (rewrite r)

/-- `cost(node)`: 1 for a leaf, 1 plus both children otherwise. -/
def cost : ASTNode → Nat
  | .leaf _ => 1
  | .node _ l r => 1 + cost l + cost r

/-! ## Termination of the saturation loop

The potential interprets `*` multiplicatively and everything else
additively; every rewrite rule strictly decreases it, and a rewrite pass
that changes nothing returns a structurally equal tree.  This is what makes
the `while prev != current` loop of `saturation` well-founded. -/

/-- Interpretation used to prove the saturation loop terminates:
leaves weigh 2, `*` multiplies, any other operator adds. -/
def potential : ASTNode → Nat
  | .leaf _ => 2
  | .node v l r => if v = "*" then potential l * potential r else potential l + potential r + 1

theorem two_le_potential (t : ASTNode) : 2 ≤ potential t := by
  induction t with
  | leaf v => simp [potential]
  | node v l r ihl ihr =>
    simp only [potential]
    split
    · nlinarith
    · omega

theorem potential_plus (a b : ASTNode) :
    potential (.node "+" a b) = potential a + potential b + 1 := by
  simp [potential]

theorem potential_times (a b : ASTNode) :
    potential (.node "*" a b) = potential a * potential b := by
  simp [potential]

theorem potential_node_le (v : String) {L R L' R' : ASTNode}
    (hl : potential L' ≤ potential L) (hr : potential R' ≤ potential R) :
    potential (.node v L' R') ≤ potential (.node v L R) := by
  simp only [potential]
  split
  · exact Nat.mul_le_mul hl hr
  · omega

theorem potential_node_lt (v : String) {L R L' R' : ASTNode}
    (hl : potential L' ≤ potential L) (hr : potential R' ≤ potential R)
    (hstrict : potential L' < potential L ∨ potential R' < potential R) :
    potential (.node v L' R') < potential (.node v L R) := by
  have h2L := two_le_potential L
  have h2R := two_le_potential R
  have h2L' := two_le_potential L'
  have h2R' := two_le_potential R'
  simp only [potential]
  split
  · rcases hstrict with h | h
    · nlinarith
    · nlinarith
  · omega

/-- One application of the rule block either returns the node unchanged or
strictly decreases the potential. -/
theorem applyRules_eq_or_lt (v : String) (L R : ASTNode) :
    applyRules v L R = .node v L R ∨
      potential (applyRules v L R) < potential (.node v L R) := by
  have h2L := two_le_potential L
  have h2R := two_le_potential R
  unfold applyRules
  split_ifs with h1 h2 h3 h4 h5 h6 h7 hv
  · right
    simp only [Bool.and_eq_true, decide_eq_true_eq] at h1
    obtain ⟨hv, -⟩ := h1
    subst hv
    rw [potential_plus]
    omega
  · right
    simp only [Bool.and_eq_true, decide_eq_true_eq] at h2
    obtain ⟨hv, -⟩ := h2
    subst hv
    rw [potential_plus]
    omega
  · right
    simp only [Bool.and_eq_true, decide_eq_true_eq] at h3
    obtain ⟨hv, -⟩ := h3
    subst hv
    rw [potential_times]
    nlinarith
  · right
    simp only [Bool.and_eq_true, decide_eq_true_eq] at h4
    obtain ⟨hv, -⟩ := h4
    subst hv
    rw [potential_times]
    nlinarith
  · right
    simp only [Bool.and_eq_true, Bool.or_eq_true, decide_eq_true_eq] at h5
    obtain ⟨hv, -⟩ := h5
    subst hv
    rw [potential_times]
    show 2 < potential L * potential R
    nlinarith
  · right
    simp only [Bool.and_eq_true, decide_eq_true_eq] at h6
    obtain ⟨-, hv⟩ := h6
    subst hv
    rw [potential_plus]
    show 2 < potential L + potential R + 1
    omega
  · right
    simp only [Bool.and_eq_true, decide_eq_true_eq] at h7
    obtain ⟨-, hv⟩ := h7
    subst hv
    rw [potential_times]
    show 2 < potential L * potential R
    nlinarith
  · subst hv
    split
    · rename_i b c
      right
      have h2b := two_le_potential b
      have h2c := two_le_potential c
      rw [potential_plus, potential_times, potential_times, potential_times, potential_plus]
      nlinarith
    · left; rfl
  · split
    · left; rfl
    · left; rfl

theorem applyRules_le (v : String) (L R : ASTNode) :
    potential (applyRules v L R) ≤ potential (.node v L R) := by
  rcases applyRules_eq_or_lt v L R with h | h
  · rw [h]
  · omega

theorem rewrite_le (t : ASTNode) : potential (rewrite t) ≤ potential t := by
  induction t with
  | leaf v => simp [rewrite]
  | node v l r ihl ihr =>
    calc potential (rewrite (.node v l r))
        = potential (applyRules v (rewrite l) (rewrite r)) := by rw [rewrite]
      _ ≤ potential (.node v (rewrite l) (rewrite r)) := applyRules_le _ _ _
      _ ≤ potential (.node v l r) := potential_node_le v ihl ihr

/-- A rewrite pass either fixes the tree or strictly decreases the potential. -/
theorem rewrite_eq_or_lt (t : ASTNode) :
    rewrite t = t ∨ potential (rewrite t) < potential t := by
  induction t with
  | leaf v => left; rfl
  | node v l r ihl ihr =>
    rcases ihl with hl | hl
    · rcases ihr with hr | hr
      · rcases applyRules_eq_or_lt v (rewrite l) (rewrite r) with h | h
        · left
          rw [rewrite, h, hl, hr]
        · right
          calc potential (rewrite (.node v l r))
              = potential (applyRules v (rewrite l) (rewrite r)) := by rw [rewrite]
            _ < potential (.node v (rewrite l) (rewrite r)) := h
            _ = potential (.node v l r) := by rw [hl, hr]
      · right
        calc potential (rewrite (.node v l r))
            = potential (applyRules v (rewrite l) (rewrite r)) := by rw [rewrite]
          _ ≤ potential (.node v (rewrite l) (rewrite r)) := applyRules_le _ _ _
          _ < potential (.node v l r) :=
              potential_node_lt v (rewrite_le l) (rewrite_le r) (Or.inr hr)
    · right
      calc potential (rewrite (.node v l r))
          = potential (applyRules v (rewrite l) (rewrite r)) := by rw [rewrite]
        _ ≤ potential (.node v (rewrite l) (rewrite r)) := applyRules_le _ _ _
        _ < potential (.node v l r) :=
            potential_node_lt v (rewrite_le l) (rewrite_le r) (Or.inl hl)

/-- `saturation(ast)`: keep applying `rewrite` until a pass returns a tree
structurally equal (`ASTNode.__eq__`) to its input; the value returned is
the result of the final pass.  The loop compares a pre-pass deep copy with
the post-pass tree, which at the value level is exactly this recursion. -/
def saturation (t : ASTNode) : ASTNode :=
  if rewrite t = t then rewrite t else saturation (rewrite t)
termination_by potential t
decreasing_by
  rcases rewrite_eq_or_lt t with h | h
  · rename_i hne; exact absurd h hne
  · exact h

/-! ## Saturation reaches a stable fixpoint -/

theorem rewrite_saturation (t : ASTNode) : rewrite (saturation t) = saturation t := by
  induction t using saturation.induct with
  | case1 t h =>
    rw [saturation, if_pos h, h]
    exact h
  | case2 t h ih =>
    rw [saturation, if_neg h]
    exact ih

theorem saturation_idem (t : ASTNode) : saturation (saturation t) = saturation t := by
  have h := rewrite_saturation t
  conv_lhs => rw [saturation]
  rw [if_pos h, h]

theorem saturation_reaches_fixpoint (t : ASTNode) :
    ∃ n : Nat, rewrite^[n + 1] t = rewrite^[n] t ∧ saturation t = rewrite^[n] t := by
  induction t using saturation.induct with
  | case1 t h =>
    refine ⟨0, ?_, ?_⟩
    · simp only [zero_add, Function.iterate_one, Function.iterate_zero, id_eq]
      exact h
    · rw [saturation, if_pos h, h]
      simp
  | case2 t h ih =>
    obtain ⟨n, hfix, hsat⟩ := ih
    refine ⟨n + 1, ?_, ?_⟩
    · rw [Function.iterate_succ_apply rewrite (n + 1) t, Function.iterate_succ_apply rewrite n t]
      exact hfix
    · rw [saturation, if_neg h, hsat, Function.iterate_succ_apply rewrite n t]

/-! ## Digit strings produced by constant folding -/

theorem digitChar_isDigit {m : Nat} (h : m < 10) : (Nat.digitChar m).isDigit = true := by
  interval_cases m <;> decide

theorem toDigitsCore_length_le (f : Nat) :
    ∀ n ds, ds.length ≤ (Nat.toDigitsCore 10 f n ds).length := by
  induction f with
  | zero => intro n ds; rw [Nat.toDigitsCore]
  | succ f ih =>
    intro n ds
    rw [Nat.toDigitsCore]
    split
    · simp
    · calc ds.length ≤ (Nat.digitChar (n % 10) :: ds).length := by simp
        _ ≤ _ := ih _ _

theorem toDigitsCore_all_digits (f : Nat) :
    ∀ n ds, (∀ c ∈ ds, c.isDigit = true) →
      ∀ c ∈ Nat.toDigitsCore 10 f n ds, c.isDigit = true := by
  induction f with
  | zero => intro n ds hds; rw [Nat.toDigitsCore]; exact hds
  | succ f ih =>
    intro n ds hds
    rw [Nat.toDigitsCore]
    have hd : ∀ c ∈ Nat.digitChar (n % 10) :: ds, c.isDigit = true := by
      intro c hc
      rcases List.mem_cons.mp hc with h | h
      · subst h; exact digitChar_isDigit (Nat.mod_lt _ (by omega))
      · exact hds c h
    split
    · exact hd
    · exact ih _ _ hd

theorem pyIsDigit_toString (n : Nat) : pyIsDigit (toString n) = true := by
  have hdata : (toString n).data = Nat.toDigits 10 n := rfl
  have hne : (Nat.toDigits 10 n).length ≠ 0 := by
    have h1 : (1 : Nat) ≤ (Nat.toDigitsCore 10 (n + 1) n []).length := by
      rw [Nat.toDigitsCore]
      split
      · simp
      · calc (1 : Nat) = [Nat.digitChar (n % 10)].length := by simp
          _ ≤ _ := toDigitsCore_length_le _ _ _
    rw [Nat.toDigits]
    omega
  have hall : ∀ c ∈ Nat.toDigits 10 n, c.isDigit = true :=
    toDigitsCore_all_digits _ _ _ (by intro c hc; cases hc)
  cases hl : Nat.toDigits 10 n with
  | nil => rw [hl] at hne; simp at hne
  | cons a as =>
    rw [pyIsDigit, hdata, hl]
    simp only [List.isEmpty_cons, Bool.not_false, Bool.true_and, List.all_eq_true]
    intro c hc
    exact hall c (hl ▸ hc)

/-! ## Shape analysis of one rule application -/

/-- Everything `applyRules` can return: one of the two rewritten children,
a fresh literal leaf (`"0"` or a folded constant, always the decimal string
of a `Nat`), the unchanged node, or the distributive expansion. -/
theorem applyRules_cases (v : String) (L R : ASTNode) :
    applyRules v L R = L ∨ applyRules v L R = R ∨
      (∃ n : Nat, applyRules v L R = .leaf (toString n)) ∨
      applyRules v L R = .node v L R ∨
      (∃ b c, R = .node "+" b c ∧ v = "*" ∧
        applyRules v L R = .node "+" (.node "*" L b) (.node "*" L c)) := by
  unfold applyRules
  split_ifs with h1 h2 h3 h4 h5 h6 h7 hv
  · exact Or.inl rfl
  · exact Or.inr (Or.inl rfl)
  · exact Or.inl rfl
  · exact Or.inr (Or.inl rfl)
  · refine Or.inr (Or.inr (Or.inl ⟨0, rfl⟩))
  · exact Or.inr (Or.inr (Or.inl ⟨_, rfl⟩))
  · exact Or.inr (Or.inr (Or.inl ⟨_, rfl⟩))
  · split
    · rename_i b c
      exact Or.inr (Or.inr (Or.inr (Or.inr ⟨b, c, rfl, hv, rfl⟩)))
    · exact Or.inr (Or.inr (Or.inr (Or.inl rfl)))
  · split
    · exact Or.inr (Or.inr (Or.inr (Or.inl rfl)))
    · exact Or.inr (Or.inr (Or.inr (Or.inl rfl)))

/-! ## Trees the parser can produce -/

/-- Shape invariant of parser output: every leaf holds a digit run or a
letter run, every operator node holds `"+"` or `"*"`. -/
def Good : ASTNode → Bool
  | .leaf v => pyIsDigit v || pyIsAlpha v
  | .node v l r => (v = "+" || v = "*") && Good l && Good r

theorem Good_applyRules {v : String} {L R : ASTNode}
    (hv : v = "+" ∨ v = "*") (hL : Good L = true) (hR : Good R = true) :
    Good (applyRules v L R) = true := by
  rcases applyRules_cases v L R with h | h | ⟨n, h⟩ | h | ⟨b, c, hR', hv', h⟩
  · rw [h]; exact hL
  · rw [h]; exact hR
  · rw [h]
    simp [Good, pyIsDigit_toString n]
  · rw [h]
    rcases hv with hv | hv <;> simp [Good, hv, hL, hR]
  · subst hR'
    rw [h]
    have hb : Good b = true := by
      simp only [Good, Bool.and_eq_true] at hR; exact hR.1.2
    have hc : Good c = true := by
      simp only [Good, Bool.and_eq_true] at hR; exact hR.2
    simp [Good, hL, hb, hc]

theorem Good_rewrite {t : ASTNode} (h : Good t = true) : Good (rewrite t) = true := by
  induction t with
  | leaf v => exact h
  | node v l r ihl ihr =>
    simp only [Good, Bool.and_eq_true, Bool.or_eq_true, decide_eq_true_eq] at h
    rw [rewrite]
    exact Good_applyRules h.1.1 (ihl h.1.2) (ihr h.2)

theorem Good_saturation {t : ASTNode} (h : Good t = true) : Good (saturation t) = true := by
  induction t using saturation.induct with
  | case1 t hfix => rw [saturation, if_pos hfix]; exact Good_rewrite h
  | case2 t hfix ih => rw [saturation, if_neg hfix]; exact ih (Good_rewrite h)

/-! ## Cost behaviour when the distributive rule cannot fire -/

/-- No `+` operator node anywhere in the tree. -/
def noAdd : ASTNode → Bool
  | .leaf _ => true
  | .node v l r => !(v = "+") && noAdd l && noAdd r

/-- No `+` operator node occurs inside either operand of any `*` node.
Under this condition the distributive rule can never fire, during any pass
of the saturation loop. -/
def noAddUnderMul : ASTNode → Bool
  | .leaf _ => true
  | .node v l r =>
    if v = "*" then noAdd l && noAdd r else noAddUnderMul l && noAddUnderMul r

theorem noAdd_imp_noAddUnderMul {t : ASTNode} (h : noAdd t = true) :
    noAddUnderMul t = true := by
  induction t with
  | leaf v => rfl
  | node v l r ihl ihr =>
    simp only [noAdd, Bool.and_eq_true] at h
    simp only [noAddUnderMul]
    split
    · simp [h.1.2, h.2]
    · simp [ihl h.1.2, ihr h.2]

theorem rewrite_noAdd {t : ASTNode} (h : noAdd t = true) :
    noAdd (rewrite t) = true ∧ cost (rewrite t) ≤ cost t := by
  induction t with
  | leaf v => exact ⟨rfl, le_refl _⟩
  | node v l r ihl ihr =>
    simp only [noAdd, Bool.and_eq_true, Bool.not_eq_true', decide_eq_false_iff_not] at h
    obtain ⟨⟨hv, hl⟩, hr⟩ := h
    obtain ⟨hL, hcL⟩ := ihl hl
    obtain ⟨hR, hcR⟩ := ihr hr
    rw [rewrite]
    rcases applyRules_cases v (rewrite l) (rewrite r) with hc | hc | ⟨n, hc⟩ | hc | hdist
    · rw [hc]
      refine ⟨hL, ?_⟩
      calc cost (rewrite l) ≤ cost l := hcL
        _ ≤ cost (.node v l r) := by rw [cost]; omega
    · rw [hc]
      refine ⟨hR, ?_⟩
      calc cost (rewrite r) ≤ cost r := hcR
        _ ≤ cost (.node v l r) := by rw [cost]; omega
    · rw [hc]
      refine ⟨rfl, ?_⟩
      rw [cost, cost]
      omega
    · rw [hc]
      constructor
      · simp only [noAdd, Bool.and_eq_true, Bool.not_eq_true', decide_eq_false_iff_not]
        exact ⟨⟨hv, hL⟩, hR⟩
      · rw [cost, cost]
        omega
    · obtain ⟨b, c, hRshape, -, -⟩ := hdist
      rw [hRshape] at hR
      simp [noAdd] at hR

theorem rewrite_noAddUnderMul {t : ASTNode} (h : noAddUnderMul t = true) :
    noAddUnderMul (rewrite t) = true ∧ cost (rewrite t) ≤ cost t := by
  induction t with
  | leaf v => exact ⟨rfl, le_refl _⟩
  | node v l r ihl ihr =>
    by_cases hv : v = "*"
    · subst hv
      have hlr : noAdd l = true ∧ noAdd r = true := by
        simp only [noAddUnderMul, if_true, Bool.and_eq_true] at h
        simpa using h
      obtain ⟨hL, hcL⟩ := rewrite_noAdd hlr.1
      obtain ⟨hR, hcR⟩ := rewrite_noAdd hlr.2
      rw [rewrite]
      rcases applyRules_cases "*" (rewrite l) (rewrite r) with hc | hc | ⟨n, hc⟩ | hc | hdist
      · rw [hc]
        refine ⟨noAdd_imp_noAddUnderMul hL, ?_⟩
        calc cost (rewrite l) ≤ cost l := hcL
          _ ≤ cost (.node "*" l r) := by rw [cost]; omega
      · rw [hc]
        refine ⟨noAdd_imp_noAddUnderMul hR, ?_⟩
        calc cost (rewrite r) ≤ cost r := hcR
          _ ≤ cost (.node "*" l r) := by rw [cost]; omega
      · rw [hc]
        refine ⟨rfl, ?_⟩
        rw [cost, cost]
        omega
      · rw [hc]
        constructor
        · simp [noAddUnderMul, hL, hR]
        · rw [cost, cost]
          omega
      · obtain ⟨b, c, hRshape, -, -⟩ := hdist
        rw [hRshape] at hR
        simp [noAdd] at hR
    · have hlr : noAddUnderMul l = true ∧ noAddUnderMul r = true := by
        simp only [noAddUnderMul, if_neg hv, Bool.and_eq_true] at h
        exact h
      obtain ⟨hL, hcL⟩ := ihl hlr.1
      obtain ⟨hR, hcR⟩ := ihr hlr.2
      rw [rewrite]
      rcases applyRules_cases v (rewrite l) (rewrite r) with hc | hc | ⟨n, hc⟩ | hc | hdist
      · rw [hc]
        refine ⟨hL, ?_⟩
        calc cost (rewrite l) ≤ cost l := hcL
          _ ≤ cost (.node v l r) := by rw [cost]; omega
      · rw [hc]
        refine ⟨hR, ?_⟩
        calc cost (rewrite r) ≤ cost r := hcR
          _ ≤ cost (.node v l r) := by rw [cost]; omega
      · rw [hc]
        refine ⟨rfl, ?_⟩
        rw [cost, cost]
        omega
      · rw [hc]
        constructor
        · simp only [noAddUnderMul, if_neg hv, Bool.and_eq_true]
          exact ⟨hL, hR⟩
        · rw [cost, cost]
          omega
      · obtain ⟨-, -, -, hvmul, -⟩ := hdist
        exact absurd hvmul hv

theorem cost_saturation_le_of_noAddUnderMul {t : ASTNode}
    (h : noAddUnderMul t = true) : cost (saturation t) ≤ cost t := by
  induction t using saturation.induct with
  | case1 t hfix =>
    rw [saturation, if_pos hfix]
    exact (rewrite_noAddUnderMul h).2
  | case2 t hfix ih =>
    rw [saturation, if_neg hfix]
    obtain ⟨hkeep, hcost⟩ := rewrite_noAddUnderMul h
    calc cost (saturation (rewrite t)) ≤ cost (rewrite t) := ih hkeep
      _ ≤ cost t := hcost

/-! ## The rule table as the specification states it

The specification describes the rewrite pass as an ordered table of seven
rules, each phrased in terms of *literal leaves* (the code instead compares
`.value` strings).  `specRewrite` below follows the specification's words;
the refinement theorem `rewrite_eq_specRewrite` shows the code's pass agrees
with it on every tree the parser can produce. -/

/-- Rule 1: `x + 0 → x` (right child is the literal leaf `"0"`). -/
def specRule1 (v : String) (L R : ASTNode) : Option ASTNode :=
  if v = "+" && R = .leaf "0" then some L else none

/-- Rule 2: `0 + x → x` (left child is the literal leaf `"0"`). -/
def specRule2 (v : String) (L R : ASTNode) : Option ASTNode :=
  if v = "+" && L = .leaf "0" then some R else none

/-- Rule 3: `x * 1 → x` (right child is the literal leaf `"1"`). -/
def specRule3 (v : String) (L R : ASTNode) : Option ASTNode :=
  if v = "*" && R = .leaf "1" then some L else none

/-- Rule 4: `1 * x → x` (left child is the literal leaf `"1"`). -/
def specRule4 (v : String) (L R : ASTNode) : Option ASTNode :=
  if v = "*" && L = .leaf "1" then some R else none

/-- Rule 5: `x * 0 → 0`, `0 * x → 0` (either child is the literal leaf
`"0"`; the result is a fresh leaf `"0"`). -/
def specRule5 (v : String) (L R : ASTNode) : Option ASTNode :=
  if v = "*" && (L = .leaf "0" || R = .leaf "0") then some (.leaf "0") else none

/-- Rule 6: constant folding — operator `+` or `*` with two literal
leaves is replaced by a single literal leaf holding the decimal string of
the folded sum or product. -/
def specRule6 (v : String) (L R : ASTNode) : Option ASTNode :=
  match L, R with
  | .leaf a, .leaf b =>
    if pyIsDigit a && pyIsDigit b then
      if v = "+" then some (.leaf (toString (pyInt a + pyInt b)))
      else if v = "*" then some (.leaf (toString (pyInt a * pyInt b)))
      else none
    else none
  | _, _ => none

/-- Rule 7: distributive expansion — operator `*` whose right child is a
`+` operator node with children `b`, `c` becomes `(a*b) + (a*c)`. -/
def specRule7 (v : String) (L R : ASTNode) : Option ASTNode :=
  match R with
  | .node "+" b c => if v = "*" then some (.node "+" (.node "*" L b) (.node "*" L c)) else none
  | _ => none

/-- The seven rules in the specification's exact priority order. -/
def specRules : List (String → ASTNode → ASTNode → Option ASTNode) :=
  [specRule1, specRule2, specRule3, specRule4, specRule5, specRule6, specRule7]

/-- Apply the first rule of the table that matches; if none matches, the
node is returned unchanged (with its already-rewritten children). -/
def specStep (v : String) (L R : ASTNode) : ASTNode :=
  (specRules.findSome? (fun rule => rule v L R)).getD (.node v L R)

/-- The specification's rewrite pass: children first (bottom-up), then the
rule table at the node. -/
def specRewrite : ASTNode → ASTNode
  | .leaf v => .leaf v
  | .node v l r => specStep v (specRewrite l) (specRewrite r)

theorem Good_value_eq {X : ASTNode} {s : String} (hX : Good X = true)
    (h1 : s ≠ "+") (h2 : s ≠ "*") : X.value = s ↔ X = ASTNode.leaf s := by
  cases X with
  | leaf v =>
    rw [ASTNode.value]
    constructor
    · intro h; rw [h]
    · intro h; cases h; rfl
  | node v l r =>
    simp only [Good, Bool.and_eq_true, Bool.or_eq_true, decide_eq_true_eq] at hX
    rw [ASTNode.value]
    constructor
    · intro h
      exfalso
      rcases hX.1.1 with hv | hv
      · exact h1 (by rw [← h, hv])
      · exact h2 (by rw [← h, hv])
    · intro h; cases h

theorem Good_isDigit_value {X : ASTNode} (hX : Good X = true) :
    pyIsDigit X.value = true ↔ ∃ a, X = ASTNode.leaf a ∧ pyIsDigit a = true := by
  cases X with
  | leaf v =>
    rw [ASTNode.value]
    constructor
    · intro h; exact ⟨v, rfl, h⟩
    · rintro ⟨a, ha, hd⟩; cases ha; exact hd
  | node v l r =>
    simp only [Good, Bool.and_eq_true, Bool.or_eq_true, decide_eq_true_eq] at hX
    rw [ASTNode.value]
    constructor
    · intro h
      exfalso
      rcases hX.1.1 with hv | hv <;> rw [hv] at h <;> exact absurd h (by decide)
    · rintro ⟨a, ha, -⟩; cases ha

theorem value_ne_leaf {R : ASTNode} {s : String} (h : ¬R.value = s) : ¬R = ASTNode.leaf s := by
  intro hh
  rw [hh] at h
  exact h rfl

theorem specRule6_none {v : String} {L R : ASTNode}
    (h : ¬(pyIsDigit L.value = true ∧ pyIsDigit R.value = true)) :
    specRule6 v L R = none := by
  cases L with
  | leaf a =>
    cases R with
    | leaf b =>
      rw [ASTNode.value, ASTNode.value] at h
      simp only [specRule6]
      rw [if_neg (by simpa using h)]
    | node _ _ _ => rfl
  | node _ _ _ => cases R <;> rfl

theorem specRule7_none {v : String} {L R : ASTNode} (h : ¬v = "*") :
    specRule7 v L R = none := by
  cases R with
  | leaf _ => rfl
  | node w b c =>
    by_cases hw : w = "+"
    · subst hw
      simp [specRule7, h]
    · simp only [specRule7]
      split
      · rename_i heq
        injection heq with hweq hbeq hceq
        exact absurd hweq hw
      · rfl

/-- On trees with parser-produced shapes, the code's rule block agrees with
the specification's ordered rule table. -/
theorem applyRules_eq_specStep {v : String} {L R : ASTNode}
    (hv : v = "+" ∨ v = "*") (hL : Good L = true) (hR : Good R = true) :
    applyRules v L R = specStep v L R := by
  unfold applyRules
  split_ifs with h1 h2 h3 h4 h5 h6 h7 hv8
  · simp only [Bool.and_eq_true, decide_eq_true_eq] at h1
    obtain ⟨hv1, hr0⟩ := h1
    subst hv1
    have hR0 : R = ASTNode.leaf "0" := (Good_value_eq hR (by decide) (by decide)).mp hr0
    have e1 : specRule1 "+" L R = some L := by simp [specRule1, hR0]
    simp [specStep, specRules, List.findSome?_cons, e1]
  · simp only [Bool.and_eq_true, decide_eq_true_eq] at h2
    obtain ⟨hv1, hl0⟩ := h2
    subst hv1
    have hL0 : L = ASTNode.leaf "0" := (Good_value_eq hL (by decide) (by decide)).mp hl0
    have hR0 : ¬R = ASTNode.leaf "0" := value_ne_leaf (fun hh => h1 (by simp [hh]))
    have e1 : specRule1 "+" L R = none := by simp [specRule1, hR0]
    have e2 : specRule2 "+" L R = some R := by simp [specRule2, hL0]
    simp [specStep, specRules, List.findSome?_cons, e1, e2]
  · simp only [Bool.and_eq_true, decide_eq_true_eq] at h3
    obtain ⟨hv3, hr1⟩ := h3
    subst hv3
    have hR1 : R = ASTNode.leaf "1" := (Good_value_eq hR (by decide) (by decide)).mp hr1
    have e1 : specRule1 "*" L R = none := by simp [specRule1]
    have e2 : specRule2 "*" L R = none := by simp [specRule2]
    have e3 : specRule3 "*" L R = some L := by simp [specRule3, hR1]
    simp [specStep, specRules, List.findSome?_cons, e1, e2, e3]
  · simp only [Bool.and_eq_true, decide_eq_true_eq] at h4
    obtain ⟨hv4, hl1⟩ := h4
    subst hv4
    have hL1 : L = ASTNode.leaf "1" := (Good_value_eq hL (by decide) (by decide)).mp hl1
    have hR1 : ¬R = ASTNode.leaf "1" := value_ne_leaf (fun hh => h3 (by simp [hh]))
    have e1 : specRule1 "*" L R = none := by simp [specRule1]
    have e2 : specRule2 "*" L R = none := by simp [specRule2]
    have e3 : specRule3 "*" L R = none := by simp [specRule3, hR1]
    have e4 : specRule4 "*" L R = some R := by simp [specRule4, hL1]
    simp [specStep, specRules, List.findSome?_cons, e1, e2, e3, e4]
  · simp only [Bool.and_eq_true, Bool.or_eq_true, decide_eq_true_eq] at h5
    obtain ⟨hv5, hlr0⟩ := h5
    subst hv5
    have hR1 : ¬R = ASTNode.leaf "1" := value_ne_leaf (fun hh => h3 (by simp [hh]))
    have hL1 : ¬L = ASTNode.leaf "1" := value_ne_leaf (fun hh => h4 (by simp [hh]))
    have e1 : specRule1 "*" L R = none := by simp [specRule1]
    have e2 : specRule2 "*" L R = none := by simp [specRule2]
    have e3 : specRule3 "*" L R = none := by simp [specRule3, hR1]
    have e4 : specRule4 "*" L R = none := by simp [specRule4, hL1]
    have e5 : specRule5 "*" L R = some (ASTNode.leaf "0") := by
      rcases hlr0 with h | h
      · have : L = ASTNode.leaf "0" := (Good_value_eq hL (by decide) (by decide)).mp h
        simp [specRule5, this]
      · have : R = ASTNode.leaf "0" := (Good_value_eq hR (by decide) (by decide)).mp h
        simp [specRule5, this]
    simp [specStep, specRules, List.findSome?_cons, e1, e2, e3, e4, e5]
  · simp only [Bool.and_eq_true, decide_eq_true_eq] at h6
    obtain ⟨⟨hdl, hdr⟩, hv6⟩ := h6
    subst hv6
    obtain ⟨a, hLa, hda⟩ := (Good_isDigit_value hL).mp hdl
    obtain ⟨b, hRb, hdb⟩ := (Good_isDigit_value hR).mp hdr
    have hR0 : ¬R = ASTNode.leaf "0" := value_ne_leaf (fun hh => h1 (by simp [hh]))
    have hL0 : ¬L = ASTNode.leaf "0" := value_ne_leaf (fun hh => h2 (by simp [hh]))
    have e1 : specRule1 "+" L R = none := by simp [specRule1, hR0]
    have e2 : specRule2 "+" L R = none := by simp [specRule2, hL0]
    have e3 : specRule3 "+" L R = none := by simp [specRule3]
    have e4 : specRule4 "+" L R = none := by simp [specRule4]
    have e5 : specRule5 "+" L R = none := by simp [specRule5]
    have e6 : specRule6 "+" L R = some (.leaf (toString (pyInt L.value + pyInt R.value))) := by
      subst hLa
      subst hRb
      simp [specRule6, ASTNode.value, hda, hdb]
    simp [specStep, specRules, List.findSome?_cons, e1, e2, e3, e4, e5, e6]
  · simp only [Bool.and_eq_true, decide_eq_true_eq] at h7
    obtain ⟨⟨hdl, hdr⟩, hv7⟩ := h7
    subst hv7
    obtain ⟨a, hLa, hda⟩ := (Good_isDigit_value hL).mp hdl
    obtain ⟨b, hRb, hdb⟩ := (Good_isDigit_value hR).mp hdr
    have hR1 : ¬R = ASTNode.leaf "1" := value_ne_leaf (fun hh => h3 (by simp [hh]))
    have hL1 : ¬L = ASTNode.leaf "1" := value_ne_leaf (fun hh => h4 (by simp [hh]))
    have hL0 : ¬L = ASTNode.leaf "0" := value_ne_leaf (fun hh => h5 (by simp [hh]))
    have hR0 : ¬R = ASTNode.leaf "0" := value_ne_leaf (fun hh => h5 (by simp [hh]))
    have e1 : specRule1 "*" L R = none := by simp [specRule1]
    have e2 : specRule2 "*" L R = none := by simp [specRule2]
    have e3 : specRule3 "*" L R = none := by simp [specRule3, hR1]
    have e4 : specRule4 "*" L R = none := by simp [specRule4, hL1]
    have e5 : specRule5 "*" L R = none := by simp [specRule5, hL0, hR0]
    have e6 : specRule6 "*" L R = some (.leaf (toString (pyInt L.value * pyInt R.value))) := by
      subst hLa
      subst hRb
      simp [specRule6, ASTNode.value, hda, hdb]
    simp [specStep, specRules, List.findSome?_cons, e1, e2, e3, e4, e5, e6]
  · subst hv8
    have hR1 : ¬R = ASTNode.leaf "1" := value_ne_leaf (fun hh => h3 (by simp [hh]))
    have hL1 : ¬L = ASTNode.leaf "1" := value_ne_leaf (fun hh => h4 (by simp [hh]))
    have hL0 : ¬L = ASTNode.leaf "0" := value_ne_leaf (fun hh => h5 (by simp [hh]))
    have hR0 : ¬R = ASTNode.leaf "0" := value_ne_leaf (fun hh => h5 (by simp [hh]))
    have hd : ¬(pyIsDigit L.value = true ∧ pyIsDigit R.value = true) := by
      intro hh
      exact h7 (by simp [hh.1, hh.2])
    have e1 : specRule1 "*" L R = none := by simp [specRule1]
    have e2 : specRule2 "*" L R = none := by simp [specRule2]
    have e3 : specRule3 "*" L R = none := by simp [specRule3, hR1]
    have e4 : specRule4 "*" L R = none := by simp [specRule4, hL1]
    have e5 : specRule5 "*" L R = none := by simp [specRule5, hL0, hR0]
    have e6 : specRule6 "*" L R = none := specRule6_none hd
    cases R with
    | leaf rv =>
      have e7 : specRule7 "*" L (ASTNode.leaf rv) = none := rfl
      simp [specStep, specRules, List.findSome?_cons, e1, e2, e3, e4, e5, e6, e7]
    | node w b c =>
      by_cases hw : w = "+"
      · subst hw
        have e7 : specRule7 "*" L (ASTNode.node "+" b c) = some
            (ASTNode.node "+" (ASTNode.node "*" L b) (ASTNode.node "*" L c)) := by
          simp [specRule7]
        simp [specStep, specRules, List.findSome?_cons, e1, e2, e3, e4, e5, e6, e7]
      · have e7 : specRule7 "*" L (ASTNode.node w b c) = none := by
          simp only [specRule7]
          split
          · rename_i heq
            injection heq with hweq hbeq hceq
            exact absurd hweq hw
          · rfl
        split
        · rename_i heq
          injection heq with hweq hbeq hceq
          exact absurd hweq hw
        · simp [specStep, specRules, List.findSome?_cons, e1, e2, e3, e4, e5, e6, e7]
  · have hvp : v = "+" := by
      rcases hv with h | h
      · exact h
      · exact absurd h hv8
    subst hvp
    have hR0 : ¬R = ASTNode.leaf "0" := value_ne_leaf (fun hh => h1 (by simp [hh]))
    have hL0 : ¬L = ASTNode.leaf "0" := value_ne_leaf (fun hh => h2 (by simp [hh]))
    have hd : ¬(pyIsDigit L.value = true ∧ pyIsDigit R.value = true) := by
      intro hh
      exact h6 (by simp [hh.1, hh.2])
    have e1 : specRule1 "+" L R = none := by simp [specRule1, hR0]
    have e2 : specRule2 "+" L R = none := by simp [specRule2, hL0]
    have e3 : specRule3 "+" L R = none := by simp [specRule3]
    have e4 : specRule4 "+" L R = none := by simp [specRule4]
    have e5 : specRule5 "+" L R = none := by simp [specRule5]
    have e6 : specRule6 "+" L R = none := specRule6_none hd
    have e7 : specRule7 "+" L R = none := specRule7_none (by decide)
    have hstep : specStep "+" L R = ASTNode.node "+" L R := by
      simp [specStep, specRules, List.findSome?_cons, e1, e2, e3, e4, e5, e6, e7]
    rw [hstep]
    split
    · rfl
    · rfl

/-- Bottom-up agreement of the code's pass with the specification's rule
table on parser-shaped trees. -/
theorem rewrite_eq_specRewrite {t : ASTNode} (h : Good t = true) :
    rewrite t = specRewrite t := by
  induction t with
  | leaf v => rfl
  | node v l r ihl ihr =>
    simp only [Good, Bool.and_eq_true, Bool.or_eq_true, decide_eq_true_eq] at h
    rw [rewrite, specRewrite, ← ihl h.1.2, ← ihr h.2]
    exact applyRules_eq_specStep h.1.1 (Good_rewrite h.1.2) (Good_rewrite h.2)

/-! ## Tokenizing a printed tree -/

/-- The token string of a fully parenthesized printed tree. -/
def flatTokens : ASTNode → List String
  | .leaf v => [v]
  | .node v l r => "(" :: (flatTokens l ++ v :: flatTokens r ++ [")"])

theorem flatTokens_length_pos (t : ASTNode) : 0 < (flatTokens t).length := by
  cases t <;> simp [flatTokens]

theorem tokenizeChars_nil : tokenizeChars [] = [] := by
  rw [tokenizeChars]

theorem tokenizeChars_cons (x : Char) (cs : List Char) :
    tokenizeChars (x :: cs) =
      if x.isDigit then
        String.mk (x :: cs.takeWhile Char.isDigit) :: tokenizeChars (cs.dropWhile Char.isDigit)
      else if x.isUpper || x.isLower then
        String.mk (x :: cs.takeWhile (fun c => c.isUpper || c.isLower)) ::
          tokenizeChars (cs.dropWhile (fun c => c.isUpper || c.isLower))
      else if isOpChar x then
        String.mk [x] :: tokenizeChars cs
      else
        tokenizeChars cs := by
  rw [tokenizeChars]

theorem takeWhile_append_stop {p : Char → Bool} {c : Char} (hc : p c = false)
    (xs ys : List Char) : (xs ++ c :: ys).takeWhile p = xs.takeWhile p := by
  induction xs with
  | nil => simp [List.takeWhile, hc]
  | cons x xs ih =>
    simp only [List.cons_append, List.takeWhile, List.append_eq]
    split
    · rw [ih]
    · rfl

theorem dropWhile_append_stop {p : Char → Bool} {c : Char} (hc : p c = false)
    (xs ys : List Char) : (xs ++ c :: ys).dropWhile p = xs.dropWhile p ++ c :: ys := by
  induction xs with
  | nil => simp [List.dropWhile, hc]
  | cons x xs ih =>
    simp only [List.cons_append, List.dropWhile, List.append_eq]
    split
    · exact ih
    · rfl

/-- A character that can extend no token run splits the scan. -/
theorem tokenizeChars_append (c : Char) (hd : c.isDigit = false)
    (ha : (c.isUpper || c.isLower) = false) :
    ∀ xs ys, tokenizeChars (xs ++ c :: ys) = tokenizeChars xs ++ tokenizeChars (c :: ys) := by
  suffices H : ∀ n xs, xs.length ≤ n →
      ∀ ys, tokenizeChars (xs ++ c :: ys) = tokenizeChars xs ++ tokenizeChars (c :: ys) by
    intro xs ys
    exact H xs.length xs (le_refl _) ys
  intro n
  induction n with
  | zero =>
    intro xs hxs ys
    have hxs0 : xs = [] := List.length_eq_zero.mp (by omega)
    subst hxs0
    simp [tokenizeChars_nil]
  | succ n ih =>
    intro xs hxs ys
    cases xs with
    | nil => simp [tokenizeChars_nil]
    | cons x xs' =>
      simp only [List.length_cons] at hxs
      rw [List.cons_append, tokenizeChars_cons, tokenizeChars_cons x xs']
      split
      · rw [takeWhile_append_stop (by simpa using hd), dropWhile_append_stop (by simpa using hd)]
        rw [ih _ (le_trans (length_dropWhile_le _ _) (by omega))]
        simp
      · split
        · rw [takeWhile_append_stop (by simpa using ha), dropWhile_append_stop (by simpa using ha)]
          rw [ih _ (le_trans (length_dropWhile_le _ _) (by omega))]
          simp
        · split
          · rw [ih _ (by omega)]
            simp
          · rw [ih _ (by omega)]

theorem tokenizeChars_space (ys : List Char) : tokenizeChars (' ' :: ys) = tokenizeChars ys := by
  rw [tokenizeChars_cons]
  rfl

theorem tokenizeChars_open (ys : List Char) :
    tokenizeChars ('(' :: ys) = "(" :: tokenizeChars ys := by
  rw [tokenizeChars_cons]
  rfl

theorem tokenizeChars_close (ys : List Char) :
    tokenizeChars (')' :: ys) = ")" :: tokenizeChars ys := by
  rw [tokenizeChars_cons]
  rfl

theorem isDigit_false_of_alpha {c : Char} (h : (c.isUpper || c.isLower) = true) :
    c.isDigit = false := by
  simp only [Char.isUpper, Char.isLower, Char.isDigit, Bool.or_eq_true, Bool.and_eq_true,
    decide_eq_true_eq, Bool.and_eq_false_iff, decide_eq_false_iff_not] at h ⊢
  rcases h with ⟨h1, h2⟩ | ⟨h1, h2⟩
  · have n1 : (65 : Nat) ≤ c.val.toNat := h1
    have n2 : c.val.toNat ≤ 90 := h2
    right
    intro hcon
    have n3 : c.val.toNat ≤ 57 := hcon
    omega
  · have n1 : (97 : Nat) ≤ c.val.toNat := h1
    have n2 : c.val.toNat ≤ 122 := h2
    right
    intro hcon
    have n3 : c.val.toNat ≤ 57 := hcon
    omega

/-- A nonempty all-digit string is scanned as exactly one token. -/
theorem tokenizeChars_digit_run {v : String} (h : pyIsDigit v = true) :
    tokenizeChars v.data = [v] := by
  rw [pyIsDigit, Bool.and_eq_true, Bool.not_eq_true'] at h
  obtain ⟨hne, hall⟩ := h
  cases hv : v.data with
  | nil => rw [hv] at hne; simp at hne
  | cons c rest =>
    rw [hv] at hall
    simp only [List.all_cons, Bool.and_eq_true] at hall
    rw [tokenizeChars_cons, if_pos hall.1]
    rw [List.takeWhile_eq_self_iff.mpr (by simpa [List.all_eq_true] using hall.2)]
    rw [List.dropWhile_eq_nil_iff.mpr (by simpa [List.all_eq_true] using hall.2)]
    rw [tokenizeChars_nil, ← hv]

/-- A nonempty all-letter string is scanned as exactly one token. -/
theorem tokenizeChars_alpha_run {v : String} (h : pyIsAlpha v = true) :
    tokenizeChars v.data = [v] := by
  rw [pyIsAlpha, Bool.and_eq_true, Bool.not_eq_true'] at h
  obtain ⟨hne, hall⟩ := h
  cases hv : v.data with
  | nil => rw [hv] at hne; simp at hne
  | cons c rest =>
    rw [hv] at hall
    simp only [List.all_cons, Bool.and_eq_true] at hall
    rw [tokenizeChars_cons, if_neg (by rw [isDigit_false_of_alpha hall.1]; simp),
      if_pos hall.1]
    rw [List.takeWhile_eq_self_iff.mpr (by simpa [List.all_eq_true] using hall.2)]
    rw [List.dropWhile_eq_nil_iff.mpr (by simpa [List.all_eq_true] using hall.2)]
    rw [tokenizeChars_nil, ← hv]

/-- Printing a parser-shaped tree and re-tokenizing recovers exactly its
token string. -/
theorem tokenize_print_good {t : ASTNode} (h : Good t = true) :
    tokenize (print_ast t) = flatTokens t := by
  induction t with
  | leaf v =>
    rw [Good] at h
    rw [tokenize, print_ast, flatTokens]
    rcases Bool.or_eq_true _ _ |>.mp h with hd | ha
    · exact tokenizeChars_digit_run hd
    · exact tokenizeChars_alpha_run ha
  | node v l r ihl ihr =>
    simp only [Good, Bool.and_eq_true, Bool.or_eq_true, decide_eq_true_eq] at h
    obtain ⟨⟨hv, hgl⟩, hgr⟩ := h
    rw [tokenize, print_ast]
    have hdata : ("(" ++ print_ast l ++ " " ++ v ++ " " ++ print_ast r ++ ")").data =
        '(' :: ((print_ast l).data ++ ' ' :: (v.data ++ ' ' :: ((print_ast r).data ++ ')' :: []))) := by
      simp only [String.data_append]
      simp
    rw [hdata, tokenizeChars_open,
      tokenizeChars_append ' ' (by decide) (by decide),
      tokenizeChars_space]
    have hvdata : v.data ++ ' ' :: ((print_ast r).data ++ ')' :: []) =
        v.data ++ ' ' :: ((print_ast r).data ++ ')' :: []) := rfl
    have hvtok : tokenizeChars (v.data ++ ' ' :: ((print_ast r).data ++ ')' :: [])) =
        v :: tokenizeChars ((print_ast r).data ++ ')' :: []) := by
      rcases hv with hv | hv <;> subst hv
      · rw [show ("+" : String).data ++ ' ' :: ((print_ast r).data ++ ')' :: []) =
            '+' :: ' ' :: ((print_ast r).data ++ ')' :: []) from rfl]
        rw [tokenizeChars_cons]
        rw [if_neg (by decide), if_neg (by decide), if_pos (by decide)]
        rw [tokenizeChars_space]
      · rw [show ("*" : String).data ++ ' ' :: ((print_ast r).data ++ ')' :: []) =
            '*' :: ' ' :: ((print_ast r).data ++ ')' :: []) from rfl]
        rw [tokenizeChars_cons]
        rw [if_neg (by decide), if_neg (by decide), if_pos (by decide)]
        rw [tokenizeChars_space]
    rw [hvtok,
      tokenizeChars_append ')' (by decide) (by decide),
      tokenizeChars_close, tokenizeChars_nil]
    rw [tokenize] at ihl ihr
    rw [ihl hgl, ihr hgr, flatTokens]
    simp


/-! ## Re-parsing a printed tree -/

theorem getElem?_append_head (pre : List String) (x : String) (rest : List String) :
    (pre ++ (x :: rest))[pre.length]? = some x := by
  rw [List.getElem?_append_right (le_refl _)]
  simp

theorem parse_term_loop_stop {tokens : List String} {acc : ASTNode} {i : Nat}
    (h : ∀ tk, tokens[i]? = some tk → ¬tk = "*") :
    parse_term_loop tokens acc i = .ok ⟨(acc, i), le_refl i⟩ := by
  rw [parse_term_loop.eq_def]
  split
  · rename_i tok htok
    rw [if_neg (h tok htok)]
  · rfl

theorem parse_sum_loop_stop {tokens : List String} {acc : ASTNode} {i : Nat}
    (h : ∀ tk, tokens[i]? = some tk → ¬tk = "+") :
    parse_sum_loop tokens acc i = .ok ⟨(acc, i), le_refl i⟩ := by
  rw [parse_sum_loop.eq_def]
  split
  · rename_i tok htok
    rw [if_neg (h tok htok)]
  · rfl

/-- Parsing the token string of a printed parser-shaped tree, embedded in
any context, recovers exactly that tree: printing fully parenthesizes, so
every tree is re-parsed as one factor. -/
theorem parse_factor_flat (t : ASTNode) (hG : Good t = true) :
    ∀ (tokens pre post : List String) (i : Nat),
      tokens = pre ++ (flatTokens t ++ post) → i = pre.length →
      parse_factor tokens i =
        .ok ⟨(t, i + (flatTokens t).length),
          by have := flatTokens_length_pos t; omega⟩ := by
  induction t with
  | leaf v =>
    intro tokens pre post i htoks hi
    have htok : tokens[i]? = some v := by
      rw [htoks, hi, show flatTokens (.leaf v) ++ post = v :: post from rfl]
      exact getElem?_append_head pre v post
    rw [Good] at hG
    rw [parse_factor.eq_def]
    split
    · rename_i hnone
      rw [htok] at hnone
      cases hnone
    · rename_i token htok2
      rw [htok] at htok2
      injection htok2 with htv
      subst htv
      rw [if_pos hG]
      simp [flatTokens]
  | node v l r ihl ihr =>
    intro tokens pre post i htoks hi
    simp only [Good, Bool.and_eq_true, Bool.or_eq_true, decide_eq_true_eq] at hG
    obtain ⟨⟨hv, hgl⟩, hgr⟩ := hG
    subst hi
    -- the opening parenthesis
    have htok0 : tokens[pre.length]? = some "(" := by
      rw [htoks, show flatTokens (.node v l r) ++ post =
        "(" :: (flatTokens l ++ (v :: (flatTokens r ++ (")" :: post)))) from by simp [flatTokens]]
      exact getElem?_append_head pre "(" _
    -- the left subtree parses as a factor at position pre.length + 1
    have hfacl : parse_factor tokens (pre.length + 1) =
        .ok ⟨(l, pre.length + 1 + (flatTokens l).length),
          by have := flatTokens_length_pos l; omega⟩ := by
      apply ihl hgl tokens (pre ++ ["("]) (v :: (flatTokens r ++ (")" :: post)))
      · rw [htoks]
        simp [flatTokens]
      · simp
    -- the operator token sits right after the left subtree
    have htokv : tokens[pre.length + 1 + (flatTokens l).length]? = some v := by
      have hlen : pre.length + 1 + (flatTokens l).length =
          (pre ++ ["("] ++ flatTokens l).length := by
        simp
        omega
      rw [hlen, htoks, show pre ++ (flatTokens (.node v l r) ++ post) =
        (pre ++ ["("] ++ flatTokens l) ++ (v :: (flatTokens r ++ (")" :: post))) from by
          simp [flatTokens]]
      exact getElem?_append_head _ v _
    -- the right subtree parses as a factor right after the operator
    have hfacr : parse_factor tokens (pre.length + 1 + (flatTokens l).length + 1) =
        .ok ⟨(r, pre.length + 1 + (flatTokens l).length + 1 + (flatTokens r).length),
          by have := flatTokens_length_pos r; omega⟩ := by
      apply ihr hgr tokens (pre ++ ["("] ++ flatTokens l ++ [v]) (")" :: post)
      · rw [htoks]
        simp [flatTokens]
      · simp
        omega
    -- the closing parenthesis
    have htokc : tokens[pre.length + 1 + (flatTokens l).length + 1 + (flatTokens r).length]? =
        some ")" := by
      have hlen : pre.length + 1 + (flatTokens l).length + 1 + (flatTokens r).length =
          (pre ++ ["("] ++ flatTokens l ++ [v] ++ flatTokens r).length := by
        simp
        omega
      rw [hlen, htoks, show pre ++ (flatTokens (.node v l r) ++ post) =
        (pre ++ ["("] ++ flatTokens l ++ [v] ++ flatTokens r) ++ (")" :: post) from by
          simp [flatTokens]]
      exact getElem?_append_head _ ")" _
    -- assemble, by cases on the operator
    rcases hv with hv | hv <;> subst hv
    · -- v = "+": the term level yields l alone, then the sum loop consumes "+"
      have hstop1 : parse_term_loop tokens l (pre.length + 1 + (flatTokens l).length) =
          .ok ⟨(l, pre.length + 1 + (flatTokens l).length), le_refl _⟩ :=
        parse_term_loop_stop (by intro tk htk; rw [htokv] at htk; injection htk with h; subst h; decide)
      have hterm1 : parse_term tokens (pre.length + 1) =
          .ok ⟨(l, pre.length + 1 + (flatTokens l).length),
            by have := flatTokens_length_pos l; omega⟩ := by
        rw [parse_term.eq_def]
        simp only [hfacl, hstop1]
      have hstop2 : parse_term_loop tokens r
          (pre.length + 1 + (flatTokens l).length + 1 + (flatTokens r).length) =
          .ok ⟨(r, pre.length + 1 + (flatTokens l).length + 1 + (flatTokens r).length), le_refl _⟩ :=
        parse_term_loop_stop (by intro tk htk; rw [htokc] at htk; injection htk with h; subst h; decide)
      have hterm2 : parse_term tokens (pre.length + 1 + (flatTokens l).length + 1) =
          .ok ⟨(r, pre.length + 1 + (flatTokens l).length + 1 + (flatTokens r).length),
            by have := flatTokens_length_pos r; omega⟩ := by
        rw [parse_term.eq_def]
        simp only [hfacr, hstop2]
      have hsl2 : parse_sum_loop tokens (.node "+" l r)
          (pre.length + 1 + (flatTokens l).length + 1 + (flatTokens r).length) =
          .ok ⟨(.node "+" l r, pre.length + 1 + (flatTokens l).length + 1 + (flatTokens r).length),
            le_refl _⟩ :=
        parse_sum_loop_stop (by intro tk htk; rw [htokc] at htk; injection htk with h; subst h; decide)
      have hsl1 : parse_sum_loop tokens l (pre.length + 1 + (flatTokens l).length) =
          .ok ⟨(.node "+" l r, pre.length + 1 + (flatTokens l).length + 1 + (flatTokens r).length),
            by omega⟩ := by
        rw [parse_sum_loop.eq_def]
        split
        · rename_i tok htok
          rw [htokv] at htok
          injection htok with h
          subst h
          rw [if_pos rfl]
          simp only [hterm2, hsl2]
        · rename_i hnone
          rw [htokv] at hnone
          cases hnone
      have hsum : parse_sum tokens (pre.length + 1) =
          .ok ⟨(.node "+" l r, pre.length + 1 + (flatTokens l).length + 1 + (flatTokens r).length),
            by omega⟩ := by
        rw [parse_sum.eq_def]
        simp only [hterm1, hsl1]
      rw [parse_factor.eq_def]
      split
      · rename_i hnone
        rw [htok0] at hnone
        cases hnone
      · rename_i token htok2
        rw [htok0] at htok2
        injection htok2 with htv
        subst htv
        rw [if_neg (by decide), if_pos rfl]
        simp only [hsum]
        simp only [Except.ok.injEq, Subtype.mk.injEq, Prod.mk.injEq, true_and]
        simp [flatTokens]
        omega
    · -- v = "*": the term loop consumes "*", the sum loop stops at ")"
      have htl2 : parse_term_loop tokens (.node "*" l r)
          (pre.length + 1 + (flatTokens l).length + 1 + (flatTokens r).length) =
          .ok ⟨(.node "*" l r, pre.length + 1 + (flatTokens l).length + 1 + (flatTokens r).length),
            le_refl _⟩ :=
        parse_term_loop_stop (by intro tk htk; rw [htokc] at htk; injection htk with h; subst h; decide)
      have htl1 : parse_term_loop tokens l (pre.length + 1 + (flatTokens l).length) =
          .ok ⟨(.node "*" l r, pre.length + 1 + (flatTokens l).length + 1 + (flatTokens r).length),
            by omega⟩ := by
        rw [parse_term_loop.eq_def]
        split
        · rename_i tok htok
          rw [htokv] at htok
          injection htok with h
          subst h
          rw [if_pos rfl]
          simp only [hfacr, htl2]
        · rename_i hnone
          rw [htokv] at hnone
          cases hnone
      have hterm : parse_term tokens (pre.length + 1) =
          .ok ⟨(.node "*" l r, pre.length + 1 + (flatTokens l).length + 1 + (flatTokens r).length),
            by omega⟩ := by
        rw [parse_term.eq_def]
        simp only [hfacl, htl1]
      have hssl : parse_sum_loop tokens (.node "*" l r)
          (pre.length + 1 + (flatTokens l).length + 1 + (flatTokens r).length) =
          .ok ⟨(.node "*" l r, pre.length + 1 + (flatTokens l).length + 1 + (flatTokens r).length),
            le_refl _⟩ :=
        parse_sum_loop_stop (by intro tk htk; rw [htokc] at htk; injection htk with h; subst h; decide)
      have hsum : parse_sum tokens (pre.length + 1) =
          .ok ⟨(.node "*" l r, pre.length + 1 + (flatTokens l).length + 1 + (flatTokens r).length),
            by omega⟩ := by
        rw [parse_sum.eq_def]
        simp only [hterm, hssl]
      rw [parse_factor.eq_def]
      split
      · rename_i hnone
        rw [htok0] at hnone
        cases hnone
      · rename_i token htok2
        rw [htok0] at htok2
        injection htok2 with htv
        subst htv
        rw [if_neg (by decide), if_pos rfl]
        simp only [hsum]
        simp only [Except.ok.injEq, Subtype.mk.injEq, Prod.mk.injEq, true_and]
        simp [flatTokens]
        omega

/-- The whole pipeline on a printed tree: the token string of a
parser-shaped tree parses back to exactly that tree. -/
theorem parse_expression_flat {t : ASTNode} (hG : Good t = true) :
    parse_expression (flatTokens t) = .ok t := by
  have hfac : parse_factor (flatTokens t) 0 =
      .ok ⟨(t, 0 + (flatTokens t).length), by have := flatTokens_length_pos t; omega⟩ := by
    apply parse_factor_flat t hG (flatTokens t) [] []
    · simp
    · rfl
  have hend : ∀ tk : String, (flatTokens t)[0 + (flatTokens t).length]? = some tk → False := by
    intro tk htk
    rw [List.getElem?_eq_none (by omega)] at htk
    cases htk
  have hstopt : parse_term_loop (flatTokens t) t (0 + (flatTokens t).length) =
      .ok ⟨(t, 0 + (flatTokens t).length), le_refl _⟩ :=
    parse_term_loop_stop (by intro tk htk; exact absurd (hend tk htk) (by simp))
  have hterm : parse_term (flatTokens t) 0 =
      .ok ⟨(t, 0 + (flatTokens t).length), by have := flatTokens_length_pos t; omega⟩ := by
    rw [parse_term.eq_def]
    simp only [hfac, hstopt]
  have hstops : parse_sum_loop (flatTokens t) t (0 + (flatTokens t).length) =
      .ok ⟨(t, 0 + (flatTokens t).length), le_refl _⟩ :=
    parse_sum_loop_stop (by intro tk htk; exact absurd (hend tk htk) (by simp))
  have hsum : parse_sum (flatTokens t) 0 =
      .ok ⟨(t, 0 + (flatTokens t).length), by have := flatTokens_length_pos t; omega⟩ := by
    rw [parse_sum.eq_def]
    simp only [hterm, hstops]
  rw [parse_expression, hsum]

/-! ## Every tree the parser produces is well shaped -/

theorem parse_sum_good (tokens : List String) (i0 : Nat) :
    ∀ res, parse_sum tokens i0 = .ok res → Good res.val.1 = true := by
  refine parse_sum.induct tokens
    (fun i => ∀ res, parse_factor tokens i = .ok res → Good res.val.1 = true)
    (fun i => ∀ res, parse_sum tokens i = .ok res → Good res.val.1 = true)
    (fun acc i => Good acc = true →
      ∀ res, parse_sum_loop tokens acc i = .ok res → Good res.val.1 = true)
    (fun i => ∀ res, parse_term tokens i = .ok res → Good res.val.1 = true)
    (fun acc i => Good acc = true →
      ∀ res, parse_term_loop tokens acc i = .ok res → Good res.val.1 = true)
    ?_ ?_ ?_ ?_ ?_ ?_ ?_ ?_ ?_ ?_ ?_ ?_ ?_ ?_ ?_ ?_ ?_ ?_ ?_ ?_ ?_ i0
  · -- factor: index error
    intro i hnone res hres
    rw [parse_factor.eq_def] at hres
    split at hres
    · cases hres
    · rename_i tok2 htok2
      rw [hnone] at htok2
      cases htok2
  · -- factor: leaf token
    intro i token htok hdig res hres
    rw [parse_factor.eq_def] at hres
    split at hres
    · cases hres
    · rename_i tok2 htok2
      rw [htok] at htok2
      injection htok2 with heq
      subst heq
      rw [if_pos hdig] at hres
      cases hres
      simpa [Good] using hdig
  · -- factor: parenthesis, inner sum errors
    intro i e hsum htok hnd hM2 res hres
    rw [parse_factor.eq_def] at hres
    split at hres
    · cases hres
    · rename_i tok2 htok2
      rw [htok] at htok2
      injection htok2 with heq
      subst heq
      rw [if_neg hnd, if_pos rfl] at hres
      simp only [hsum] at hres
      cases hres
  · -- factor: parenthesis, inner sum succeeds
    intro i n j hj hsum htok hnd hM2 res hres
    rw [parse_factor.eq_def] at hres
    split at hres
    · cases hres
    · rename_i tok2 htok2
      rw [htok] at htok2
      injection htok2 with heq
      subst heq
      rw [if_neg hnd, if_pos rfl] at hres
      simp only [hsum] at hres
      cases hres
      exact hM2 ⟨(n, j), hj⟩ hsum
  · -- factor: unexpected token
    intro i token htok hnd hnp res hres
    rw [parse_factor.eq_def] at hres
    split at hres
    · cases hres
    · rename_i tok2 htok2
      rw [htok] at htok2
      injection htok2 with heq
      subst heq
      rw [if_neg hnd, if_neg hnp] at hres
      cases hres
  · -- sum: term errors
    intro i e hterm hM4 res hres
    rw [parse_sum.eq_def] at hres
    simp only [hterm] at hres
    cases hres
  · -- sum: term ok, loop errors
    intro i n j hj hterm e hloop hM4 hM3 res hres
    rw [parse_sum.eq_def] at hres
    simp only [hterm, hloop] at hres
    cases hres
  · -- sum: term ok, loop ok
    intro i n j hj hterm n1 k hk hloop hM4 hM3 res hres
    rw [parse_sum.eq_def] at hres
    simp only [hterm, hloop] at hres
    cases hres
    exact hM3 (hM4 ⟨(n, j), hj⟩ hterm) ⟨(n1, k), hk⟩ hloop
  · -- sum loop: "+" then term errors
    intro acc i e hterm htok hM4 hacc res hres
    rw [parse_sum_loop.eq_def] at hres
    split at hres
    · rename_i tok2 htok2
      rw [htok] at htok2
      injection htok2 with heq
      subst heq
      rw [if_pos rfl] at hres
      simp only [hterm] at hres
      cases hres
    · rename_i htok2
      rw [htok] at htok2
      cases htok2
  · -- sum loop: "+" then term ok, recursive loop errors
    intro acc i n j hj hterm e hloop htok hM4 hM3 hacc res hres
    rw [parse_sum_loop.eq_def] at hres
    split at hres
    · rename_i tok2 htok2
      rw [htok] at htok2
      injection htok2 with heq
      subst heq
      rw [if_pos rfl] at hres
      simp only [hterm, hloop] at hres
      cases hres
    · rename_i htok2
      rw [htok] at htok2
      cases htok2
  · -- sum loop: "+" then term ok, recursive loop ok
    intro acc i n j hj hterm n1 k hk hloop htok hM4 hM3 hacc res hres
    rw [parse_sum_loop.eq_def] at hres
    split at hres
    · rename_i tok2 htok2
      rw [htok] at htok2
      injection htok2 with heq
      subst heq
      rw [if_pos rfl] at hres
      simp only [hterm, hloop] at hres
      cases hres
      have hgn : Good n = true := hM4 ⟨(n, j), hj⟩ hterm
      exact hM3 (by simp [Good, hacc, hgn]) ⟨(n1, k), hk⟩ hloop
    · rename_i htok2
      rw [htok] at htok2
      cases htok2
  · -- sum loop: stopping token
    intro acc i tok htok hne hacc res hres
    rw [parse_sum_loop.eq_def] at hres
    split at hres
    · rename_i tok2 htok2
      rw [htok] at htok2
      injection htok2 with heq
      subst heq
      rw [if_neg hne] at hres
      cases hres
      exact hacc
    · rename_i htok2
      rw [htok] at htok2
      cases htok2
  · -- sum loop: end of input
    intro acc i hnone hacc res hres
    rw [parse_sum_loop.eq_def] at hres
    split at hres
    · rename_i tok2 htok2
      rw [hnone] at htok2
      cases htok2
    · cases hres
      exact hacc
  · -- term: factor errors
    intro i e hfac hM1 res hres
    rw [parse_term.eq_def] at hres
    simp only [hfac] at hres
    cases hres
  · -- term: factor ok, loop errors
    intro i n j hj hfac e hloop hM1 hM5 res hres
    rw [parse_term.eq_def] at hres
    simp only [hfac, hloop] at hres
    cases hres
  · -- term: factor ok, loop ok
    intro i n j hj hfac n1 k hk hloop hM1 hM5 res hres
    rw [parse_term.eq_def] at hres
    simp only [hfac, hloop] at hres
    cases hres
    exact hM5 (hM1 ⟨(n, j), hj⟩ hfac) ⟨(n1, k), hk⟩ hloop
  · -- term loop: "*" then factor errors
    intro acc i e hfac htok hM1 hacc res hres
    rw [parse_term_loop.eq_def] at hres
    split at hres
    · rename_i tok2 htok2
      rw [htok] at htok2
      injection htok2 with heq
      subst heq
      rw [if_pos rfl] at hres
      simp only [hfac] at hres
      cases hres
    · rename_i htok2
      rw [htok] at htok2
      cases htok2
  · -- term loop: "*" then factor ok, recursive loop errors
    intro acc i n j hj hfac e hloop htok hM1 hM5 hacc res hres
    rw [parse_term_loop.eq_def] at hres
    split at hres
    · rename_i tok2 htok2
      rw [htok] at htok2
      injection htok2 with heq
      subst heq
      rw [if_pos rfl] at hres
      simp only [hfac, hloop] at hres
      cases hres
    · rename_i htok2
      rw [htok] at htok2
      cases htok2
  · -- term loop: "*" then factor ok, recursive loop ok
    intro acc i n j hj hfac n1 k hk hloop htok hM1 hM5 hacc res hres
    rw [parse_term_loop.eq_def] at hres
    split at hres
    · rename_i tok2 htok2
      rw [htok] at htok2
      injection htok2 with heq
      subst heq
      rw [if_pos rfl] at hres
      simp only [hfac, hloop] at hres
      cases hres
      have hgn : Good n = true := hM1 ⟨(n, j), hj⟩ hfac
      exact hM5 (by simp [Good, hacc, hgn]) ⟨(n1, k), hk⟩ hloop
    · rename_i htok2
      rw [htok] at htok2
      cases htok2
  · -- term loop: stopping token
    intro acc i tok htok hne hacc res hres
    rw [parse_term_loop.eq_def] at hres
    split at hres
    · rename_i tok2 htok2
      rw [htok] at htok2
      injection htok2 with heq
      subst heq
      rw [if_neg hne] at hres
      cases hres
      exact hacc
    · rename_i htok2
      rw [htok] at htok2
      cases htok2
  · -- term loop: end of input
    intro acc i hnone hacc res hres
    rw [parse_term_loop.eq_def] at hres
    split at hres
    · rename_i tok2 htok2
      rw [hnone] at htok2
      cases htok2
    · cases hres
      exact hacc

/-- Every tree `parse_expression` returns satisfies the shape invariant. -/
theorem parse_expression_good {tokens : List String} {t : ASTNode}
    (h : parse_expression tokens = .ok t) : Good t = true := by
  rw [parse_expression] at h
  rcases hs : parse_sum tokens 0 with e | res
  · rw [hs] at h
    cases h
  · rw [hs] at h
    obtain ⟨⟨n, j⟩, hj⟩ := res
    injection h with heq
    subst heq
    exact parse_sum_good tokens 0 ⟨(n, j), hj⟩ hs

/-! ## The Python object model, with its partiality

`PyNode` is the `ASTNode` class exactly as Python has it: the children are
optional references.  `rewriteP` and `costP` translate `rewrite` and `cost`
including every place they would raise (`rewrite(None)` and `cost(None)`
dereference `None.left`, an `AttributeError`): a `none` result is a raised
exception.  On the trees the parser actually produces these functions never
return `none` and agree with the total model — that is the no-failure
claim. -/

inductive PyNode where
  | mk (value : String) (left right : Option PyNode)

def PyNode.value : PyNode → String
  | .mk v _ _ => v

def PyNode.left : PyNode → Option PyNode
  | .mk _ l _ => l

def PyNode.right : PyNode → Option PyNode
  | .mk _ _ r => r

/-- `rewrite` on Python objects; `none` models a raised exception: a node
with a left child but no right child evaluates `rewrite(node.left)` first
and then raises inside `rewrite(None)`. -/
def rewriteP : PyNode → Option PyNode
  | .mk v none r => some (.mk v none r)
  | .mk _ (some l) none =>
    match rewriteP l with
    | none => none
    | some _ => none
  | .mk v (some l) (some r0) =>
    match rewriteP l with
    | none => none
    | some l1 =>
      match rewriteP r0 with
        | none => none
        | some r1 =>
          if v = "+" && r1.value = "0" then some l1
          else if v = "+" && l1.value = "0" then some r1
          else if v = "*" && r1.value = "1" then some l1
          else if v = "*" && l1.value = "1" then some r1
          else if v = "*" && (l1.value = "0" || r1.value = "0") then some (.mk "0" none none)
          else if pyIsDigit l1.value && pyIsDigit r1.value && v = "+" then
            some (.mk (toString (pyInt l1.value + pyInt r1.value)) none none)
          else if pyIsDigit l1.value && pyIsDigit r1.value && v = "*" then
            some (.mk (toString (pyInt l1.value * pyInt r1.value)) none none)
          else if v = "*" && r1.value = "+" then
            some (.mk "+" (some (.mk "*" (some l1) r1.left)) (some (.mk "*" (some l1) r1.right)))
          else some (.mk v (some l1) (some r1))

/-- `cost` on Python objects; `none` models a raised exception
(`cost(None)` dereferences `None.left`). -/
def costP : PyNode → Option Nat
  | .mk _ none _ => some 1
  | .mk _ (some l) none =>
    match costP l with
    | none => none
    | some _ => none
  | .mk _ (some l) (some r0) =>
    match costP l with
    | none => none
    | some cl =>
      match costP r0 with
      | none => none
      | some cr => some (1 + cl + cr)

/-- The object the parser's tree denotes. -/
def toPy : ASTNode → PyNode
  | .leaf v => .mk v none none
  | .node v l r => .mk v (some (toPy l)) (some (toPy r))

theorem toPy_value (t : ASTNode) : (toPy t).value = t.value := by
  cases t <;> rfl

theorem toPy_inj {a b : ASTNode} (h : toPy a = toPy b) : a = b := by
  induction a generalizing b with
  | leaf v =>
    cases b with
    | leaf w => injection h with h1 h2 h3; rw [h1]
    | node w l r => injection h with h1 h2 h3; cases h2
  | node v l r ihl ihr =>
    cases b with
    | leaf w => injection h with h1 h2 h3; cases h2
    | node w l2 r2 =>
      injection h with h1 h2 h3
      injection h2 with h2
      injection h3 with h3
      rw [h1, ihl h2, ihr h3]

theorem Good_value_plus {X : ASTNode} (hX : Good X = true) (h : X.value = "+") :
    ∃ b c, X = ASTNode.node "+" b c := by
  cases X with
  | leaf v =>
    rw [ASTNode.value] at h
    subst h
    rw [Good] at hX
    exact absurd hX (by decide)
  | node w b c =>
    rw [ASTNode.value] at h
    subst h
    exact ⟨b, c, rfl⟩

theorem Good_value_ne_plus {X : ASTNode} (hX : Good X = true)
    (h : ∀ b c, X ≠ ASTNode.node "+" b c) : (X.value = "+") = False := by
  simp only [eq_iff_iff, iff_false]
  intro hv
  obtain ⟨b, c, hbc⟩ := Good_value_plus hX hv
  exact h b c hbc

theorem Good_leaf_ne_plus {w : String} (hG : Good (ASTNode.leaf w) = true) :
    ¬w = "+" := by
  intro hw
  subst hw
  rw [Good] at hG
  exact absurd hG (by decide)

/-- On parser-shaped trees `rewrite` never raises and agrees with the
total model. -/
theorem rewriteP_toPy {t : ASTNode} (h : Good t = true) :
    rewriteP (toPy t) = some (toPy (rewrite t)) := by
  induction t with
  | leaf v => rfl
  | node v l r ihl ihr =>
    simp only [Good, Bool.and_eq_true, Bool.or_eq_true, decide_eq_true_eq] at h
    obtain ⟨⟨hv, hgl⟩, hgr⟩ := h
    have hGR : Good (rewrite r) = true := Good_rewrite hgr
    rw [show toPy (.node v l r) = .mk v (some (toPy l)) (some (toPy r)) from rfl]
    rw [rewriteP]
    simp only [ihl hgl, ihr hgr]
    rw [show rewrite (.node v l r) = applyRules v (rewrite l) (rewrite r) from rfl]
    simp only [toPy_value]
    by_cases hc1 : (v = "+" && (rewrite r).value = "0") = true
    · rw [show applyRules v (rewrite l) (rewrite r) = rewrite l from by
        unfold applyRules; rw [if_pos hc1]]
      simp [hc1]
    · by_cases hc2 : (v = "+" && (rewrite l).value = "0") = true
      · rw [show applyRules v (rewrite l) (rewrite r) = rewrite r from by
          unfold applyRules; rw [if_neg hc1, if_pos hc2]]
        simp [hc1, hc2]
      · by_cases hc3 : (v = "*" && (rewrite r).value = "1") = true
        · rw [show applyRules v (rewrite l) (rewrite r) = rewrite l from by
            unfold applyRules; rw [if_neg hc1, if_neg hc2, if_pos hc3]]
          simp [hc1, hc2, hc3]
        · by_cases hc4 : (v = "*" && (rewrite l).value = "1") = true
          · rw [show applyRules v (rewrite l) (rewrite r) = rewrite r from by
              unfold applyRules; rw [if_neg hc1, if_neg hc2, if_neg hc3, if_pos hc4]]
            simp [hc1, hc2, hc3, hc4]
          · by_cases hc5 : (v = "*" && ((rewrite l).value = "0" || (rewrite r).value = "0")) = true
            · rw [show applyRules v (rewrite l) (rewrite r) = ASTNode.leaf "0" from by
                unfold applyRules; rw [if_neg hc1, if_neg hc2, if_neg hc3, if_neg hc4, if_pos hc5]]
              simp [hc1, hc2, hc3, hc4, hc5, toPy]
            · by_cases hc6 : (pyIsDigit (rewrite l).value && pyIsDigit (rewrite r).value
                  && v = "+") = true
              · rw [show applyRules v (rewrite l) (rewrite r) =
                    ASTNode.leaf (toString (pyInt (rewrite l).value + pyInt (rewrite r).value))
                    from by
                  unfold applyRules
                  rw [if_neg hc1, if_neg hc2, if_neg hc3, if_neg hc4, if_neg hc5, if_pos hc6]]
                simp [hc1, hc2, hc3, hc4, hc5, hc6, toPy]
              · by_cases hc7 : (pyIsDigit (rewrite l).value && pyIsDigit (rewrite r).value
                    && v = "*") = true
                · rw [show applyRules v (rewrite l) (rewrite r) =
                      ASTNode.leaf (toString (pyInt (rewrite l).value * pyInt (rewrite r).value))
                      from by
                    unfold applyRules
                    rw [if_neg hc1, if_neg hc2, if_neg hc3, if_neg hc4, if_neg hc5, if_neg hc6,
                      if_pos hc7]]
                  simp [hc1, hc2, hc3, hc4, hc5, hc6, hc7, toPy]
                · simp only [hc1, hc2, hc3, hc4, hc5, hc6, hc7, Bool.false_eq_true, if_false]
                  rcases hrr : rewrite r with w | ⟨w, b, c⟩
                  · -- rewritten right child is a leaf; its value is not "+"
                    have hwp : ¬w = "+" := Good_leaf_ne_plus (hrr ▸ hGR)
                    have happ : applyRules v (rewrite l) (rewrite r) =
                        ASTNode.node v (rewrite l) (rewrite r) := by
                      unfold applyRules
                      rw [if_neg hc1, if_neg hc2, if_neg hc3, if_neg hc4, if_neg hc5, if_neg hc6,
                        if_neg hc7, hrr]
                    rw [← hrr, happ, if_neg (by rw [hrr]; simp [ASTNode.value, hwp]), hrr]
                    rfl
                  · by_cases hw : w = "+"
                    · subst hw
                      by_cases hv2 : v = "*"
                      · subst hv2
                        have happ : applyRules "*" (rewrite l) (rewrite r) =
                            ASTNode.node "+" (ASTNode.node "*" (rewrite l) b)
                              (ASTNode.node "*" (rewrite l) c) := by
                          unfold applyRules
                          rw [if_neg hc1, if_neg hc2, if_neg hc3, if_neg hc4, if_neg hc5,
                            if_neg hc6, if_neg hc7, hrr]
                          simp
                        rw [← hrr, happ, if_pos (by rw [hrr]; simp [ASTNode.value]), hrr]
                        simp [toPy, PyNode.left, PyNode.right]
                      · have happ : applyRules v (rewrite l) (rewrite r) =
                            ASTNode.node v (rewrite l) (rewrite r) := by
                          unfold applyRules
                          rw [if_neg hc1, if_neg hc2, if_neg hc3, if_neg hc4, if_neg hc5,
                            if_neg hc6, if_neg hc7, hrr]
                          simp [hv2]
                        rw [← hrr, happ, if_neg (by simp [hv2]), hrr]
                        rfl
                    · have happ : applyRules v (rewrite l) (rewrite r) =
                          ASTNode.node v (rewrite l) (rewrite r) := by
                        unfold applyRules
                        rw [if_neg hc1, if_neg hc2, if_neg hc3, if_neg hc4, if_neg hc5,
                          if_neg hc6, if_neg hc7, hrr]
                        split
                        · rename_i b2 c2 heq
                          injection heq with h1
                          exact absurd h1 hw
                        · rfl
                      rw [← hrr, happ, if_neg (by rw [hrr]; simp [ASTNode.value, hw]), hrr]
                      rfl

/-- On parser-shaped trees `cost` never raises and agrees with the total
model. -/
theorem costP_toPy (t : ASTNode) : costP (toPy t) = some (cost t) := by
  induction t with
  | leaf v => rfl
  | node v l r ihl ihr =>
    rw [show toPy (.node v l r) = .mk v (some (toPy l)) (some (toPy r)) from rfl]
    rw [costP]
    simp only [ihl, ihr]
    rfl

/-- The saturation driver's `while prev != current` loop as a step
relation over Python objects: each step is one `rewrite` pass (which may
raise, left constructor), the loop exits when the pass returns a tree
structurally equal to the pre-pass copy. -/
inductive SatRel : PyNode → Option PyNode → Prop
  | raised {t : PyNode} : rewriteP t = none → SatRel t none
  | finished {t t' : PyNode} : rewriteP t = some t' → t' = t → SatRel t (some t')
  | step {t t' : PyNode} {o : Option PyNode} :
      rewriteP t = some t' → t' ≠ t → SatRel t' o → SatRel t o

/-- On parser-shaped trees the saturation loop never raises: it terminates
with the value of the total model. -/
theorem satRel_toPy {t : ASTNode} (h : Good t = true) :
    SatRel (toPy t) (some (toPy (saturation t))) := by
  induction t using saturation.induct with
  | case1 t hfix =>
    rw [saturation, if_pos hfix]
    exact SatRel.finished (by rw [rewriteP_toPy h, hfix]) (by rw [hfix])
  | case2 t hfix ih =>
    rw [saturation, if_neg hfix]
    exact SatRel.step (rewriteP_toPy h)
      (fun hc => hfix (toPy_inj hc)) (ih (Good_rewrite h))

/-! ## The pointer heap: `deepcopy` and in-place mutation

`saturation` first takes a `copy.deepcopy` of its argument and mutates only
that copy (`rewrite` assigns `node.left` / `node.right` in place).  To state
what that buys the caller — the original tree is untouched — the objects are
modelled as records in a heap addressed by allocation order.  `deepcopyH`
only appends fresh records; `rewriteH` mutates fields of nodes it was given
and appends the records the rules allocate; `treeEqH` is `__eq__`, a pure
read.  All three take fuel and return `none` when it runs out or a pointer
dangles; every actual run of the Python loop is some fueled run. -/

structure PyRec where
  value : String
  left : Option Nat
  right : Option Nat
deriving DecidableEq

/-- Assign `node.left = x` at address `p`. -/
def setLeft (H : List PyRec) (p : Nat) (x : Option Nat) : List PyRec :=
  match H[p]? with
  | some rec0 => H.set p { rec0 with left := x }
  | none => H

/-- Assign `node.right = x` at address `p`. -/
def setRight (H : List PyRec) (p : Nat) (x : Option Nat) : List PyRec :=
  match H[p]? with
  | some rec0 => H.set p { rec0 with right := x }
  | none => H

/-- `copy.deepcopy` with its memo dictionary: a memoised structural copy
that only allocates fresh records. -/
def deepcopyH : Nat → List PyRec → List (Nat × Nat) → Nat →
    Option (List PyRec × List (Nat × Nat) × Nat)
  | 0, _, _, _ => none
  | f + 1, H, memo, p =>
    match memo.lookup p with
    | some q => some (H, memo, q)
    | none =>
      match H[p]? with
      | none => none
      | some rec0 =>
        match rec0.left with
        | none =>
          match rec0.right with
          | none => some (H ++ [⟨rec0.value, none, none⟩], (p, H.length) :: memo, H.length)
          | some rr =>
            match deepcopyH f H memo rr with
            | none => none
            | some (H1, m1, rq) =>
              some (H1 ++ [⟨rec0.value, none, some rq⟩], (p, H1.length) :: m1, H1.length)
        | some ll =>
          match deepcopyH f H memo ll with
          | none => none
          | some (H1, m1, lq) =>
            match rec0.right with
            | none => some (H1 ++ [⟨rec0.value, some lq, none⟩], (p, H1.length) :: m1, H1.length)
            | some rr =>
              match deepcopyH f H1 m1 rr with
              | none => none
              | some (H2, m2, rq) =>
                some (H2 ++ [⟨rec0.value, some lq, some rq⟩], (p, H2.length) :: m2, H2.length)

/-- `rewrite` over the heap: rewrite the left child and assign the field,
then the right child, then read the fields back and apply the rule table;
rules return an existing pointer or allocate (`ASTNode('0')`, the folded
constant, or the three nodes of the distributive expansion, in Python's
argument-evaluation order). -/
def rewriteH : Nat → List PyRec → Nat → Option (List PyRec × Nat)
  | 0, _, _ => none
  | f + 1, H, p =>
    match H[p]? with
    | none => none
    | some rec0 =>
      match rec0.left with
      | none => some (H, p)
      | some l =>
        match rewriteH f H l with
        | none => none
        | some (H1, l1) =>
          match (setLeft H1 p (some l1))[p]? with
          | none => none
          | some recA =>
            match recA.right with
            | none => none
            | some r =>
              match rewriteH f (setLeft H1 p (some l1)) r with
              | none => none
              | some (H3, r1) =>
                match (setRight H3 p (some r1))[p]? with
                | none => none
                | some recB =>
                  match recB.left, recB.right with
                  | some lp, some rp =>
                    match (setRight H3 p (some r1))[lp]?, (setRight H3 p (some r1))[rp]? with
                    | some lrec, some rrec =>
                      if recB.value = "+" && rrec.value = "0" then
                        some (setRight H3 p (some r1), lp)
                      else if recB.value = "+" && lrec.value = "0" then
                        some (setRight H3 p (some r1), rp)
                      else if recB.value = "*" && rrec.value = "1" then
                        some (setRight H3 p (some r1), lp)
                      else if recB.value = "*" && lrec.value = "1" then
                        some (setRight H3 p (some r1), rp)
                      else if recB.value = "*" && (lrec.value = "0" || rrec.value = "0") then
                        some (setRight H3 p (some r1) ++ [⟨"0", none, none⟩],
                          (setRight H3 p (some r1)).length)
                      else if pyIsDigit lrec.value && pyIsDigit rrec.value
                          && recB.value = "+" then
                        some (setRight H3 p (some r1) ++
                          [⟨toString (pyInt lrec.value + pyInt rrec.value), none, none⟩],
                          (setRight H3 p (some r1)).length)
                      else if pyIsDigit lrec.value && pyIsDigit rrec.value
                          && recB.value = "*" then
                        some (setRight H3 p (some r1) ++
                          [⟨toString (pyInt lrec.value * pyInt rrec.value), none, none⟩],
                          (setRight H3 p (some r1)).length)
                      else if recB.value = "*" && rrec.value = "+" then
                        some (setRight H3 p (some r1) ++
                          [⟨"*", recB.left, rrec.left⟩, ⟨"*", recB.left, rrec.right⟩,
                            ⟨"+", some (setRight H3 p (some r1)).length,
                              some ((setRight H3 p (some r1)).length + 1)⟩],
                          (setRight H3 p (some r1)).length + 2)
                      else some (setRight H3 p (some r1), p)
                    | _, _ => none
                  | _, _ => none

/-- `ASTNode.__eq__` over the heap (structural equality of two objects). -/
def treeEqH : Nat → List PyRec → Nat → Nat → Option Bool
  | 0, _, _, _ => none
  | f + 1, H, p, q =>
    match H[p]?, H[q]? with
    | some a, some b =>
      if a.value ≠ b.value then some false
      else
        match a.left, b.left with
        | none, none =>
          (match a.right, b.right with
           | none, none => some true
           | some x, some y => treeEqH f H x y
           | _, _ => some false)
        | some x, some y =>
          (match treeEqH f H x y with
           | none => none
           | some false => some false
           | some true =>
             match a.right, b.right with
             | none, none => some true
             | some x2, some y2 => treeEqH f H x2 y2
             | _, _ => some false)
        | _, _ => some false
    | _, _ => none

/-- Pointer `p` holds tree `t` in heap `H`. -/
inductive HRepr : List PyRec → Nat → ASTNode → Prop where
  | leaf {H : List PyRec} {p : Nat} {v : String} :
      H[p]? = some ⟨v, none, none⟩ → HRepr H p (.leaf v)
  | node {H : List PyRec} {p : Nat} {v : String} {lp rp : Nat} {tl tr : ASTNode} :
      H[p]? = some ⟨v, some lp, some rp⟩ →
      HRepr H lp tl → HRepr H rp tr → HRepr H p (.node v tl tr)

/-- Every record at or above `lo` points only at or above `lo`. -/
def HighClosed (H : List PyRec) (lo : Nat) : Prop :=
  ∀ a rec0, lo ≤ a → H[a]? = some rec0 →
    (∀ x, rec0.left = some x → lo ≤ x) ∧ (∀ x, rec0.right = some x → lo ≤ x)

/-- The `while prev != current` loop: deep-copy the current tree as `prev`,
run one rewrite pass, stop when the pass result equals the copy. -/
inductive SatLoop : List PyRec → Nat → List PyRec → Nat → Prop where
  | last {H : List PyRec} {cur : Nat} (f1 f2 f3 : Nat) {Hd : List PyRec}
      {md : List (Nat × Nat)} {pv : Nat} {Hr : List PyRec} {cur' : Nat} :
      deepcopyH f1 H [] cur = some (Hd, md, pv) →
      rewriteH f2 Hd cur = some (Hr, cur') →
      treeEqH f3 Hr pv cur' = some true →
      SatLoop H cur Hr cur'
  | step {H : List PyRec} {cur : Nat} (f1 f2 f3 : Nat) {Hd : List PyRec}
      {md : List (Nat × Nat)} {pv : Nat} {Hr : List PyRec} {cur' : Nat}
      {H' : List PyRec} {q : Nat} :
      deepcopyH f1 H [] cur = some (Hd, md, pv) →
      rewriteH f2 Hd cur = some (Hr, cur') →
      treeEqH f3 Hr pv cur' = some false →
      SatLoop Hr cur' H' q →
      SatLoop H cur H' q

/-- A complete run of `saturation(ast)`: the initial
`current = copy.deepcopy(ast)`, then the loop. -/
def SatRunH (H : List PyRec) (ast : Nat) (H' : List PyRec) (q : Nat) : Prop :=
  ∃ f Hd md cur0, deepcopyH f H [] ast = some (Hd, md, cur0) ∧ SatLoop Hd cur0 H' q

theorem lt_of_getElem?_some {H : List PyRec} {a : Nat} {r : PyRec} (h : H[a]? = some r) :
    a < H.length := by
  by_contra hc
  rw [List.getElem?_eq_none (by omega)] at h
  cases h

theorem setLeft_length (H : List PyRec) (p : Nat) (x : Option Nat) :
    (setLeft H p x).length = H.length := by
  rw [setLeft]
  split
  · rw [List.length_set]
  · rfl

theorem setRight_length (H : List PyRec) (p : Nat) (x : Option Nat) :
    (setRight H p x).length = H.length := by
  rw [setRight]
  split
  · rw [List.length_set]
  · rfl

theorem getElem?_setLeft_ne (H : List PyRec) (p : Nat) (x : Option Nat) (a : Nat)
    (h : ¬a = p) : (setLeft H p x)[a]? = H[a]? := by
  rw [setLeft]
  split
  · exact List.getElem?_set_ne (fun hh => h hh.symm)
  · rfl

theorem getElem?_setRight_ne (H : List PyRec) (p : Nat) (x : Option Nat) (a : Nat)
    (h : ¬a = p) : (setRight H p x)[a]? = H[a]? := by
  rw [setRight]
  split
  · exact List.getElem?_set_ne (fun hh => h hh.symm)
  · rfl

theorem highClosed_setLeft {H : List PyRec} {lo : Nat} {p : Nat} {x : Option Nat}
    (hH : HighClosed H lo) (hx : ∀ y, x = some y → lo ≤ y) :
    HighClosed (setLeft H p x) lo := by
  intro a rec1 ha hrec
  by_cases hap : a = p
  · subst hap
    rw [setLeft] at hrec
    split at hrec
    · rename_i rec0 h0
      rw [List.getElem?_set_self (lt_of_getElem?_some h0)] at hrec
      injection hrec with he
      subst he
      obtain ⟨-, hr⟩ := hH a rec0 ha h0
      exact ⟨fun y hy => hx y hy, fun y hy => hr y hy⟩
    · exact hH a rec1 ha hrec
  · rw [getElem?_setLeft_ne H p x a hap] at hrec
    exact hH a rec1 ha hrec

theorem highClosed_setRight {H : List PyRec} {lo : Nat} {p : Nat} {x : Option Nat}
    (hH : HighClosed H lo) (hx : ∀ y, x = some y → lo ≤ y) :
    HighClosed (setRight H p x) lo := by
  intro a rec1 ha hrec
  by_cases hap : a = p
  · subst hap
    rw [setRight] at hrec
    split at hrec
    · rename_i rec0 h0
      rw [List.getElem?_set_self (lt_of_getElem?_some h0)] at hrec
      injection hrec with he
      subst he
      obtain ⟨hl, -⟩ := hH a rec0 ha h0
      exact ⟨fun y hy => hl y hy, fun y hy => hx y hy⟩
    · exact hH a rec1 ha hrec
  · rw [getElem?_setRight_ne H p x a hap] at hrec
    exact hH a rec1 ha hrec

theorem highClosed_append {H : List PyRec} {lo : Nat} {ext : List PyRec}
    (hH : HighClosed H lo)
    (hext : ∀ rec1 ∈ ext,
      (∀ x, rec1.left = some x → lo ≤ x) ∧ (∀ x, rec1.right = some x → lo ≤ x)) :
    HighClosed (H ++ ext) lo := by
  intro a rec1 ha hrec
  by_cases hlt : a < H.length
  · rw [List.getElem?_append_left hlt] at hrec
    exact hH a rec1 ha hrec
  · rw [List.getElem?_append_right (by omega)] at hrec
    exact hext rec1 (List.getElem?_mem hrec)

theorem hRepr_frame {H H' : List PyRec} {p : Nat} {t : ASTNode} (h : HRepr H p t)
    (hagree : ∀ a, a < H.length → H'[a]? = H[a]?) : HRepr H' p t := by
  induction h with
  | leaf h0 =>
    exact HRepr.leaf (by rw [hagree _ (lt_of_getElem?_some h0)]; exact h0)
  | node h0 hl hr ihl ihr =>
    exact HRepr.node (by rw [hagree _ (lt_of_getElem?_some h0)]; exact h0) ihl ihr

theorem highClosed_top (H : List PyRec) : HighClosed H H.length := by
  intro a rec1 ha hrec
  have := lt_of_getElem?_some hrec
  omega

theorem lookup_le {memo : List (Nat × Nat)} {lo p q : Nat}
    (hm : ∀ kv ∈ memo, lo ≤ kv.2) (h : memo.lookup p = some q) : lo ≤ q := by
  induction memo with
  | nil => rw [List.lookup_nil] at h; cases h
  | cons kv t ih =>
    obtain ⟨k, v⟩ := kv
    rw [List.lookup_cons] at h
    split at h
    · injection h with h1
      subst h1
      exact hm (k, v) (List.mem_cons_self _ _)
    · exact ih (fun kv2 hkv2 => hm kv2 (List.mem_cons_of_mem _ hkv2)) h

/-- `deepcopy` only allocates: addresses present before the call still hold
the same record after it, the heap only grows, records at or above `lo` keep
pointing at or above `lo`, and the returned pointer (and every memo value)
is at or above `lo`. -/
theorem deepcopyH_frame {lo : Nat} :
    ∀ f H memo p H' memo' p',
      deepcopyH f H memo p = some (H', memo', p') →
      lo ≤ H.length →
      (∀ kv ∈ memo, lo ≤ kv.2) →
      HighClosed H lo →
      (∀ a, a < H.length → H'[a]? = H[a]?) ∧
      H.length ≤ H'.length ∧
      HighClosed H' lo ∧
      lo ≤ p' ∧
      (∀ kv ∈ memo', lo ≤ kv.2) := by
  intro f
  induction f with
  | zero => intro H memo p H' memo' p' h; cases h
  | succ f ih =>
    intro H memo p H' memo' p' h hlo hm hH
    rw [deepcopyH] at h
    split at h
    · rename_i q hq
      simp only [Option.some.injEq, Prod.mk.injEq] at h
      obtain ⟨rfl, rfl, rfl⟩ := h
      exact ⟨fun a ha => rfl, le_rfl, hH, lookup_le hm hq, hm⟩
    · split at h
      · cases h
      · rename_i rec0 hrec
        split at h
        · rename_i hleft
          split at h
          · rename_i hright
            simp only [Option.some.injEq, Prod.mk.injEq] at h
            obtain ⟨rfl, rfl, rfl⟩ := h
            refine ⟨fun a ha => List.getElem?_append_left ha, by simp, ?_, hlo, ?_⟩
            · refine highClosed_append hH ?_
              intro rec1 h1
              simp only [List.mem_singleton] at h1
              subst h1
              exact ⟨fun x hx => (by cases hx), fun x hx => (by cases hx)⟩
            · intro kv hkv
              rcases List.mem_cons.mp hkv with h1 | h1
              · subst h1
                exact hlo
              · exact hm kv h1
          · rename_i rr hright
            split at h
            · cases h
            · rename_i H1 m1 rq hcall
              obtain ⟨fr1, len1, HC1, hrq, hm1⟩ :=
                ih H memo rr H1 m1 rq hcall hlo hm hH
              simp only [Option.some.injEq, Prod.mk.injEq] at h
              obtain ⟨rfl, rfl, rfl⟩ := h
              refine ⟨fun a ha =>
                  by rw [List.getElem?_append_left (by omega), fr1 a ha],
                le_trans len1 (by simp), ?_, le_trans hlo len1, ?_⟩
              · refine highClosed_append HC1 ?_
                intro rec1 h1
                simp only [List.mem_singleton] at h1
                subst h1
                refine ⟨fun x hx => (by cases hx), fun x hx => ?_⟩
                have hx2 : rq = x := by injection hx
                subst hx2
                exact hrq
              · intro kv hkv
                rcases List.mem_cons.mp hkv with h1 | h1
                · subst h1
                  exact le_trans hlo len1
                · exact hm1 kv h1
        · rename_i ll hleft
          split at h
          · cases h
          · rename_i H1 m1 lq hcall1
            obtain ⟨fr1, len1, HC1, hlq, hm1⟩ :=
              ih H memo ll H1 m1 lq hcall1 hlo hm hH
            split at h
            · rename_i hright
              simp only [Option.some.injEq, Prod.mk.injEq] at h
              obtain ⟨rfl, rfl, rfl⟩ := h
              refine ⟨fun a ha =>
                  by rw [List.getElem?_append_left (by omega), fr1 a ha],
                le_trans len1 (by simp), ?_, le_trans hlo len1, ?_⟩
              · refine highClosed_append HC1 ?_
                intro rec1 h1
                simp only [List.mem_singleton] at h1
                subst h1
                refine ⟨fun x hx => ?_, fun x hx => (by cases hx)⟩
                have hx2 : lq = x := by injection hx
                subst hx2
                exact hlq
              · intro kv hkv
                rcases List.mem_cons.mp hkv with h1 | h1
                · subst h1
                  exact le_trans hlo len1
                · exact hm1 kv h1
            · rename_i rr hright
              split at h
              · cases h
              · rename_i H2 m2 rq hcall2
                obtain ⟨fr2, len2, HC2, hrq, hm2⟩ :=
                  ih H1 m1 rr H2 m2 rq hcall2 (le_trans hlo len1) hm1 HC1
                simp only [Option.some.injEq, Prod.mk.injEq] at h
                obtain ⟨rfl, rfl, rfl⟩ := h
                refine ⟨fun a ha =>
                    by rw [List.getElem?_append_left (by omega),
                      fr2 a (by omega), fr1 a ha],
                  by simp; omega, ?_, by omega, ?_⟩
                · refine highClosed_append HC2 ?_
                  intro rec1 h1
                  simp only [List.mem_singleton] at h1
                  subst h1
                  refine ⟨fun x hx => ?_, fun x hx => ?_⟩
                  · have hx2 : lq = x := by injection hx
                    subst hx2
                    exact hlq
                  · have hx2 : rq = x := by injection hx
                    subst hx2
                    exact hrq
                · intro kv hkv
                  rcases List.mem_cons.mp hkv with h1 | h1
                  · subst h1
                    omega
                  · exact hm2 kv h1


set_option maxHeartbeats 1000000 in
/-- One `rewrite` pass over the heap never touches a record below `lo` when
its argument and everything reachable from records at or above `lo` stays at
or above `lo`: addresses below `lo` keep their records, the heap only grows,
closure above `lo` is preserved, and the result pointer is at or above `lo`. -/
theorem rewriteH_frame {lo : Nat} :
    ∀ f H p H' p',
      rewriteH f H p = some (H', p') →
      lo ≤ H.length →
      HighClosed H lo →
      lo ≤ p →
      (∀ a, a < lo → H'[a]? = H[a]?) ∧
      H.length ≤ H'.length ∧
      HighClosed H' lo ∧
      lo ≤ p' := by
  intro f
  induction f with
  | zero => intro H p H' p' h; cases h
  | succ f ih =>
    intro H p H' p' h hlo hH hp
    rw [rewriteH] at h
    split at h
    · cases h
    · rename_i rec0 hrec
      split at h
      · simp only [Option.some.injEq, Prod.mk.injEq] at h
        obtain ⟨rfl, rfl⟩ := h
        exact ⟨fun a ha => rfl, le_rfl, hH, hp⟩
      · rename_i l hleft
        split at h
        · cases h
        · rename_i H1 l1 hcall1
          have hl : lo ≤ l := (hH p rec0 hp hrec).1 l hleft
          obtain ⟨fr1, len1, HC1, hl1⟩ := ih H l H1 l1 hcall1 hlo hH hl
          have lenA : (setLeft H1 p (some l1)).length = H1.length :=
            setLeft_length H1 p (some l1)
          have frA : ∀ a, a < lo → (setLeft H1 p (some l1))[a]? = H1[a]? :=
            fun a ha => getElem?_setLeft_ne H1 p (some l1) a (by omega)
          have HCA : HighClosed (setLeft H1 p (some l1)) lo :=
            highClosed_setLeft HC1 (fun y hy => by
              have hy2 : l1 = y := by injection hy
              subst hy2
              exact hl1)
          split at h
          · cases h
          · rename_i recA hrecA
            split at h
            · cases h
            · rename_i r hright
              have hr : lo ≤ r := (HCA p recA hp hrecA).2 r hright
              split at h
              · cases h
              · rename_i H3 r1 hcall2
                obtain ⟨fr3, len3, HC3, hr1⟩ :=
                  ih (setLeft H1 p (some l1)) r H3 r1 hcall2 (by omega) HCA hr
                have lenB : (setRight H3 p (some r1)).length = H3.length :=
                  setRight_length H3 p (some r1)
                have frAll : ∀ a, a < lo → (setRight H3 p (some r1))[a]? = H[a]? :=
                  fun a ha => by
                    rw [getElem?_setRight_ne H3 p (some r1) a (by omega),
                      fr3 a ha, frA a ha, fr1 a ha]
                have lenAll : H.length ≤ (setRight H3 p (some r1)).length := by omega
                have HCB : HighClosed (setRight H3 p (some r1)) lo :=
                  highClosed_setRight HC3 (fun y hy => by
                    have hy2 : r1 = y := by injection hy
                    subst hy2
                    exact hr1)
                generalize hHB : setRight H3 p (some r1) = HB at h frAll lenAll HCB lenB
                split at h
                · cases h
                · rename_i recB hrecB
                  split at h
                  · rename_i lp rp hBl hBr
                    have hlp : lo ≤ lp := (HCB p recB hp hrecB).1 lp hBl
                    have hrp : lo ≤ rp := (HCB p recB hp hrecB).2 rp hBr
                    split at h
                    · rename_i lrec rrec hlrec hrrec
                      split_ifs at h with hc1 hc2 hc3 hc4 hc5 hc6 hc7 hc8 <;>
                        simp only [Option.some.injEq, Prod.mk.injEq] at h
                      · obtain ⟨rfl, rfl⟩ := h
                        exact ⟨frAll, lenAll, HCB, hlp⟩
                      · obtain ⟨rfl, rfl⟩ := h
                        exact ⟨frAll, lenAll, HCB, hrp⟩
                      · obtain ⟨rfl, rfl⟩ := h
                        exact ⟨frAll, lenAll, HCB, hlp⟩
                      · obtain ⟨rfl, rfl⟩ := h
                        exact ⟨frAll, lenAll, HCB, hrp⟩
                      · obtain ⟨rfl, rfl⟩ := h
                        refine ⟨fun a ha =>
                            by rw [List.getElem?_append_left (by omega), frAll a ha],
                          le_trans lenAll (by simp), ?_, by omega⟩
                        refine highClosed_append HCB ?_
                        intro rec1 h1
                        simp only [List.mem_singleton] at h1
                        subst h1
                        exact ⟨fun x hx => (by cases hx), fun x hx => (by cases hx)⟩
                      · obtain ⟨rfl, rfl⟩ := h
                        refine ⟨fun a ha =>
                            by rw [List.getElem?_append_left (by omega), frAll a ha],
                          le_trans lenAll (by simp), ?_, by omega⟩
                        refine highClosed_append HCB ?_
                        intro rec1 h1
                        simp only [List.mem_singleton] at h1
                        subst h1
                        exact ⟨fun x hx => (by cases hx), fun x hx => (by cases hx)⟩
                      · obtain ⟨rfl, rfl⟩ := h
                        refine ⟨fun a ha =>
                            by rw [List.getElem?_append_left (by omega), frAll a ha],
                          le_trans lenAll (by simp), ?_, by omega⟩
                        refine highClosed_append HCB ?_
                        intro rec1 h1
                        simp only [List.mem_singleton] at h1
                        subst h1
                        exact ⟨fun x hx => (by cases hx), fun x hx => (by cases hx)⟩
                      · obtain ⟨rfl, rfl⟩ := h
                        have hrecl : ∀ x, recB.left = some x → lo ≤ x := by
                          intro x hx
                          rw [hBl] at hx
                          have hx2 : lp = x := by injection hx
                          subst hx2
                          exact hlp
                        have hrrecc := HCB rp rrec hrp hrrec
                        refine ⟨fun a ha =>
                            by rw [List.getElem?_append_left (by omega), frAll a ha],
                          le_trans lenAll (by simp), ?_, by omega⟩
                        refine highClosed_append HCB ?_
                        intro rec1 h1
                        simp only [List.mem_cons, List.not_mem_nil, or_false] at h1
                        rcases h1 with h1 | h1 | h1 <;> subst h1
                        · exact ⟨fun x hx => hrecl x hx, fun x hx => hrrecc.1 x hx⟩
                        · exact ⟨fun x hx => hrecl x hx, fun x hx => hrrecc.2 x hx⟩
                        · refine ⟨fun x hx => ?_, fun x hx => ?_⟩
                          · have hx2 : HB.length = x := by injection hx
                            omega
                          · have hx2 : HB.length + 1 = x := by injection hx
                            omega
                      · obtain ⟨rfl, rfl⟩ := h
                        exact ⟨frAll, lenAll, HCB, hp⟩
                    · cases h
                  · cases h

/-- Across the whole `while` loop, records below `lo` are untouched. -/
theorem satLoop_frame {lo : Nat} :
    ∀ {H : List PyRec} {cur : Nat} {H' : List PyRec} {q : Nat},
      SatLoop H cur H' q → lo ≤ H.length → HighClosed H lo → lo ≤ cur →
      (∀ a, a < lo → H'[a]? = H[a]?) ∧ lo ≤ H'.length := by
  intro H cur H' q hloop
  induction hloop with
  | last f1 f2 f3 hd hr htr =>
    intro hlo hH hcur
    obtain ⟨frd, lend, HCd, hpv, -⟩ :=
      deepcopyH_frame _ _ _ _ _ _ _ hd hlo
        (fun kv hkv => absurd hkv (List.not_mem_nil kv)) hH
    obtain ⟨frr, lenr, HCr, hcur2⟩ :=
      rewriteH_frame _ _ _ _ _ hr (by omega) HCd hcur
    exact ⟨fun a ha => by rw [frr a ha, frd a (by omega)], by omega⟩
  | step f1 f2 f3 hd hr htr hrest ih =>
    intro hlo hH hcur
    obtain ⟨frd, lend, HCd, hpv, -⟩ :=
      deepcopyH_frame _ _ _ _ _ _ _ hd hlo
        (fun kv hkv => absurd hkv (List.not_mem_nil kv)) hH
    obtain ⟨frr, lenr, HCr, hcur2⟩ :=
      rewriteH_frame _ _ _ _ _ hr (by omega) HCd hcur
    obtain ⟨frl, lenl⟩ := ih (by omega) HCr hcur2
    exact ⟨fun a ha => by rw [frl a ha, frr a ha, frd a (by omega)], by omega⟩

/-- `saturation` reads its argument but never writes it: every record the
argument tree occupies is the same after the call, so the argument still
represents the same tree. -/
theorem saturation_frame {H : List PyRec} {ast : Nat} {t : ASTNode}
    {H' : List PyRec} {q : Nat}
    (hrep : HRepr H ast t) (hrun : SatRunH H ast H' q) : HRepr H' ast t := by
  obtain ⟨f, Hd, md, cur0, hd, hloop⟩ := hrun
  obtain ⟨frd, lend, HCd, hcur0, -⟩ :=
    deepcopyH_frame f H [] ast Hd md cur0 hd le_rfl
      (fun kv hkv => absurd hkv (List.not_mem_nil kv)) (highClosed_top H)
  obtain ⟨frl, -⟩ := satLoop_frame hloop lend HCd hcur0
  exact hRepr_frame hrep (fun a ha => by rw [frl a ha, frd a ha])

/-! ## Concrete runs of the tokenizer and parser

The pipeline evaluated on the inputs the claims talk about.  The parser
functions are defined by well-founded recursion, so concrete runs are
assembled call by call from the equation lemmas. -/

theorem tokenize_unclosed : tokenize "(a+b" = ["(", "a", "+", "b"] := by
  simp +decide [tokenize, tokenizeChars.eq_def]

theorem tokenize_truncated : tokenize "(a+" = ["(", "a", "+"] := by
  simp +decide [tokenize, tokenizeChars.eq_def]

theorem tokenize_minus : tokenize "a-b" = ["a", "-", "b"] := by
  simp +decide [tokenize, tokenizeChars.eq_def]

theorem tokenize_dist : tokenize "a*(b+c)" = ["a", "*", "(", "b", "+", "c", ")"] := by
  simp +decide [tokenize, tokenizeChars.eq_def]

theorem tokenize_mulone : tokenize "p*q*((b+c)*1)" =
    ["p", "*", "q", "*", "(", "(", "b", "+", "c", ")", "*", "1", ")"] := by
  simp +decide [tokenize, tokenizeChars.eq_def]

theorem parse_sum_open_a : parse_sum ["(", "a"] 1 = .ok ⟨(.leaf "a", 2), by omega⟩ := by
  have h1 : parse_factor ["(", "a"] 1 = .ok ⟨(.leaf "a", 2), by omega⟩ := by
    rw [parse_factor.eq_def]; rfl
  have h2 : parse_term_loop ["(", "a"] (.leaf "a") 2 = .ok ⟨(.leaf "a", 2), le_refl 2⟩ := by
    rw [parse_term_loop.eq_def]; rfl
  have h3 : parse_term ["(", "a"] 1 = .ok ⟨(.leaf "a", 2), by omega⟩ := by
    rw [parse_term.eq_def]; simp only [h1, h2]
  have h4 : parse_sum_loop ["(", "a"] (.leaf "a") 2 = .ok ⟨(.leaf "a", 2), le_refl 2⟩ := by
    rw [parse_sum_loop.eq_def]; rfl
  rw [parse_sum.eq_def]; simp only [h3, h4]

theorem pe_one_leaf : parse_expression ["x"] = .ok (.leaf "x") := by
  have h1 : parse_factor ["x"] 0 = .ok ⟨(.leaf "x", 1), by omega⟩ := by
    rw [parse_factor.eq_def]; rfl
  have h2 : parse_term_loop ["x"] (.leaf "x") 1 = .ok ⟨(.leaf "x", 1), le_refl 1⟩ := by
    rw [parse_term_loop.eq_def]; rfl
  have h3 : parse_term ["x"] 0 = .ok ⟨(.leaf "x", 1), by omega⟩ := by
    rw [parse_term.eq_def]; simp only [h1, h2]
  have h4 : parse_sum_loop ["x"] (.leaf "x") 1 = .ok ⟨(.leaf "x", 1), le_refl 1⟩ := by
    rw [parse_sum_loop.eq_def]; rfl
  have h5 : parse_sum ["x"] 0 = .ok ⟨(.leaf "x", 1), by omega⟩ := by
    rw [parse_sum.eq_def]; simp only [h3, h4]
  rw [parse_expression]; simp only [h5]

theorem pe_unclosed : parse_expression ["(", "a", "+", "b"] =
    .ok (.node "+" (.leaf "a") (.leaf "b")) := by
  have h1 : parse_factor ["(", "a", "+", "b"] 1 = .ok ⟨(.leaf "a", 2), by omega⟩ := by
    rw [parse_factor.eq_def]; rfl
  have h2 : parse_term_loop ["(", "a", "+", "b"] (.leaf "a") 2 =
      .ok ⟨(.leaf "a", 2), le_refl 2⟩ := by
    rw [parse_term_loop.eq_def]; rfl
  have h3 : parse_term ["(", "a", "+", "b"] 1 = .ok ⟨(.leaf "a", 2), by omega⟩ := by
    rw [parse_term.eq_def]; simp only [h1, h2]
  have h4 : parse_factor ["(", "a", "+", "b"] 3 = .ok ⟨(.leaf "b", 4), by omega⟩ := by
    rw [parse_factor.eq_def]; rfl
  have h5 : parse_term_loop ["(", "a", "+", "b"] (.leaf "b") 4 =
      .ok ⟨(.leaf "b", 4), le_refl 4⟩ := by
    rw [parse_term_loop.eq_def]; rfl
  have h6 : parse_term ["(", "a", "+", "b"] 3 = .ok ⟨(.leaf "b", 4), by omega⟩ := by
    rw [parse_term.eq_def]; simp only [h4, h5]
  have h7 : parse_sum_loop ["(", "a", "+", "b"] (.node "+" (.leaf "a") (.leaf "b")) 4 =
      .ok ⟨(.node "+" (.leaf "a") (.leaf "b"), 4), le_refl 4⟩ := by
    rw [parse_sum_loop.eq_def]; rfl
  have h8 : parse_sum_loop ["(", "a", "+", "b"] (.leaf "a") 2 =
      .ok ⟨(.node "+" (.leaf "a") (.leaf "b"), 4), by omega⟩ := by
    rw [parse_sum_loop.eq_def]
    split
    · rename_i tok h0
      rw [show (["(", "a", "+", "b"] : List String)[2]? = some "+" from rfl] at h0
      injection h0 with h0e
      subst h0e
      rw [if_pos rfl]
      simp only [h6, h7]
    · rename_i h0
      exact absurd h0 (by decide)
  have h9 : parse_sum ["(", "a", "+", "b"] 1 =
      .ok ⟨(.node "+" (.leaf "a") (.leaf "b"), 4), by omega⟩ := by
    rw [parse_sum.eq_def]; simp only [h3, h8]
  have h10 : parse_factor ["(", "a", "+", "b"] 0 =
      .ok ⟨(.node "+" (.leaf "a") (.leaf "b"), 5), by omega⟩ := by
    rw [parse_factor.eq_def]
    split
    · rename_i h0
      exact absurd h0 (by decide)
    · rename_i token h0
      rw [show (["(", "a", "+", "b"] : List String)[0]? = some "(" from rfl] at h0
      injection h0 with h0e
      subst h0e
      rw [if_neg (by decide), if_pos rfl]
      simp only [h9]
  have h11 : parse_term_loop ["(", "a", "+", "b"] (.node "+" (.leaf "a") (.leaf "b")) 5 =
      .ok ⟨(.node "+" (.leaf "a") (.leaf "b"), 5), le_refl 5⟩ := by
    rw [parse_term_loop.eq_def]; rfl
  have h12 : parse_term ["(", "a", "+", "b"] 0 =
      .ok ⟨(.node "+" (.leaf "a") (.leaf "b"), 5), by omega⟩ := by
    rw [parse_term.eq_def]; simp only [h10, h11]
  have h13 : parse_sum_loop ["(", "a", "+", "b"] (.node "+" (.leaf "a") (.leaf "b")) 5 =
      .ok ⟨(.node "+" (.leaf "a") (.leaf "b"), 5), le_refl 5⟩ := by
    rw [parse_sum_loop.eq_def]; rfl
  have h14 : parse_sum ["(", "a", "+", "b"] 0 =
      .ok ⟨(.node "+" (.leaf "a") (.leaf "b"), 5), by omega⟩ := by
    rw [parse_sum.eq_def]; simp only [h12, h13]
  rw [parse_expression]; simp only [h14]

theorem pe_truncated : parse_expression ["(", "a", "+"] = .error .indexError := by
  have h1 : parse_factor ["(", "a", "+"] 1 = .ok ⟨(.leaf "a", 2), by omega⟩ := by
    rw [parse_factor.eq_def]; rfl
  have h2 : parse_term_loop ["(", "a", "+"] (.leaf "a") 2 =
      .ok ⟨(.leaf "a", 2), le_refl 2⟩ := by
    rw [parse_term_loop.eq_def]; rfl
  have h3 : parse_term ["(", "a", "+"] 1 = .ok ⟨(.leaf "a", 2), by omega⟩ := by
    rw [parse_term.eq_def]; simp only [h1, h2]
  have h4 : parse_factor ["(", "a", "+"] 3 = .error .indexError := by
    rw [parse_factor.eq_def]; rfl
  have h5 : parse_term ["(", "a", "+"] 3 = .error .indexError := by
    rw [parse_term.eq_def]; simp only [h4]
  have h6 : parse_sum_loop ["(", "a", "+"] (.leaf "a") 2 = .error .indexError := by
    rw [parse_sum_loop.eq_def]
    split
    · rename_i tok h0
      rw [show (["(", "a", "+"] : List String)[2]? = some "+" from rfl] at h0
      injection h0 with h0e
      subst h0e
      rw [if_pos rfl]
      simp only [h5]
    · rename_i h0
      exact absurd h0 (by decide)
  have h7 : parse_sum ["(", "a", "+"] 1 = .error .indexError := by
    rw [parse_sum.eq_def]; simp only [h3, h6]
  have h8 : parse_factor ["(", "a", "+"] 0 = .error .indexError := by
    rw [parse_factor.eq_def]
    split
    · rename_i h0
      exact absurd h0 (by decide)
    · rename_i token h0
      rw [show (["(", "a", "+"] : List String)[0]? = some "(" from rfl] at h0
      injection h0 with h0e
      subst h0e
      rw [if_neg (by decide), if_pos rfl]
      simp only [h7]
  have h9 : parse_term ["(", "a", "+"] 0 = .error .indexError := by
    rw [parse_term.eq_def]; simp only [h8]
  have h10 : parse_sum ["(", "a", "+"] 0 = .error .indexError := by
    rw [parse_sum.eq_def]; simp only [h9]
  rw [parse_expression]; simp only [h10]

theorem pe_minus : parse_expression ["a", "-", "b"] = .ok (.leaf "a") := by
  have h1 : parse_factor ["a", "-", "b"] 0 = .ok ⟨(.leaf "a", 1), by omega⟩ := by
    rw [parse_factor.eq_def]; rfl
  have h2 : parse_term_loop ["a", "-", "b"] (.leaf "a") 1 =
      .ok ⟨(.leaf "a", 1), le_refl 1⟩ := by
    rw [parse_term_loop.eq_def]; rfl
  have h3 : parse_term ["a", "-", "b"] 0 = .ok ⟨(.leaf "a", 1), by omega⟩ := by
    rw [parse_term.eq_def]; simp only [h1, h2]
  have h4 : parse_sum_loop ["a", "-", "b"] (.leaf "a") 1 =
      .ok ⟨(.leaf "a", 1), le_refl 1⟩ := by
    rw [parse_sum_loop.eq_def]; rfl
  have h5 : parse_sum ["a", "-", "b"] 0 = .ok ⟨(.leaf "a", 1), by omega⟩ := by
    rw [parse_sum.eq_def]; simp only [h3, h4]
  rw [parse_expression]; simp only [h5]

theorem pe_dist : parse_expression ["a", "*", "(", "b", "+", "c", ")"] =
    .ok (.node "*" (.leaf "a") (.node "+" (.leaf "b") (.leaf "c"))) := by
  have h1 : parse_factor ["a", "*", "(", "b", "+", "c", ")"] 0 =
      .ok ⟨(.leaf "a", 1), by omega⟩ := by
    rw [parse_factor.eq_def]; rfl
  have h2 : parse_factor ["a", "*", "(", "b", "+", "c", ")"] 2 =
      .ok ⟨(.node "+" (.leaf "b") (.leaf "c"), 7), by omega⟩ :=
    parse_factor_flat (.node "+" (.leaf "b") (.leaf "c")) (by decide)
      ["a", "*", "(", "b", "+", "c", ")"] ["a", "*"] [] 2 (by rfl) (by rfl)
  have h3 : parse_term_loop ["a", "*", "(", "b", "+", "c", ")"]
      (.node "*" (.leaf "a") (.node "+" (.leaf "b") (.leaf "c"))) 7 =
      .ok ⟨(.node "*" (.leaf "a") (.node "+" (.leaf "b") (.leaf "c")), 7), le_refl 7⟩ := by
    rw [parse_term_loop.eq_def]; rfl
  have h4 : parse_term_loop ["a", "*", "(", "b", "+", "c", ")"] (.leaf "a") 1 =
      .ok ⟨(.node "*" (.leaf "a") (.node "+" (.leaf "b") (.leaf "c")), 7), by omega⟩ := by
    rw [parse_term_loop.eq_def]
    split
    · rename_i tok h0
      rw [show (["a", "*", "(", "b", "+", "c", ")"] : List String)[1]? = some "*"
        from rfl] at h0
      injection h0 with h0e
      subst h0e
      rw [if_pos rfl]
      simp only [h2, h3]
    · rename_i h0
      exact absurd h0 (by decide)
  have h5 : parse_term ["a", "*", "(", "b", "+", "c", ")"] 0 =
      .ok ⟨(.node "*" (.leaf "a") (.node "+" (.leaf "b") (.leaf "c")), 7), by omega⟩ := by
    rw [parse_term.eq_def]; simp only [h1, h4]
  have h6 : parse_sum_loop ["a", "*", "(", "b", "+", "c", ")"]
      (.node "*" (.leaf "a") (.node "+" (.leaf "b") (.leaf "c"))) 7 =
      .ok ⟨(.node "*" (.leaf "a") (.node "+" (.leaf "b") (.leaf "c")), 7), le_refl 7⟩ := by
    rw [parse_sum_loop.eq_def]; rfl
  have h7 : parse_sum ["a", "*", "(", "b", "+", "c", ")"] 0 =
      .ok ⟨(.node "*" (.leaf "a") (.node "+" (.leaf "b") (.leaf "c")), 7), by omega⟩ := by
    rw [parse_sum.eq_def]; simp only [h5, h6]
  rw [parse_expression]; simp only [h7]

theorem pe_mulone : parse_expression
    ["p", "*", "q", "*", "(", "(", "b", "+", "c", ")", "*", "1", ")"] =
    .ok (.node "*" (.node "*" (.leaf "p") (.leaf "q"))
      (.node "*" (.node "+" (.leaf "b") (.leaf "c")) (.leaf "1"))) := by
  have h1 : parse_factor ["p", "*", "q", "*", "(", "(", "b", "+", "c", ")", "*", "1", ")"] 0 =
      .ok ⟨(.leaf "p", 1), by omega⟩ := by
    rw [parse_factor.eq_def]; rfl
  have h2 : parse_factor ["p", "*", "q", "*", "(", "(", "b", "+", "c", ")", "*", "1", ")"] 2 =
      .ok ⟨(.leaf "q", 3), by omega⟩ := by
    rw [parse_factor.eq_def]; rfl
  have h3 : parse_factor ["p", "*", "q", "*", "(", "(", "b", "+", "c", ")", "*", "1", ")"] 4 =
      .ok ⟨(.node "*" (.node "+" (.leaf "b") (.leaf "c")) (.leaf "1"), 13), by omega⟩ :=
    parse_factor_flat (.node "*" (.node "+" (.leaf "b") (.leaf "c")) (.leaf "1")) (by decide)
      ["p", "*", "q", "*", "(", "(", "b", "+", "c", ")", "*", "1", ")"]
      ["p", "*", "q", "*"] [] 4 (by rfl) (by rfl)
  have h4 : parse_term_loop ["p", "*", "q", "*", "(", "(", "b", "+", "c", ")", "*", "1", ")"]
      (.node "*" (.node "*" (.leaf "p") (.leaf "q"))
        (.node "*" (.node "+" (.leaf "b") (.leaf "c")) (.leaf "1"))) 13 =
      .ok ⟨(.node "*" (.node "*" (.leaf "p") (.leaf "q"))
        (.node "*" (.node "+" (.leaf "b") (.leaf "c")) (.leaf "1")), 13), le_refl 13⟩ := by
    rw [parse_term_loop.eq_def]; rfl
  have h5 : parse_term_loop ["p", "*", "q", "*", "(", "(", "b", "+", "c", ")", "*", "1", ")"]
      (.node "*" (.leaf "p") (.leaf "q")) 3 =
      .ok ⟨(.node "*" (.node "*" (.leaf "p") (.leaf "q"))
        (.node "*" (.node "+" (.leaf "b") (.leaf "c")) (.leaf "1")), 13), by omega⟩ := by
    rw [parse_term_loop.eq_def]
    split
    · rename_i tok h0
      rw [show (["p", "*", "q", "*", "(", "(", "b", "+", "c", ")", "*", "1", ")"] :
        List String)[3]? = some "*" from rfl] at h0
      injection h0 with h0e
      subst h0e
      rw [if_pos rfl]
      simp only [h3, h4]
    · rename_i h0
      exact absurd h0 (by decide)
  have h6 : parse_term_loop ["p", "*", "q", "*", "(", "(", "b", "+", "c", ")", "*", "1", ")"]
      (.leaf "p") 1 =
      .ok ⟨(.node "*" (.node "*" (.leaf "p") (.leaf "q"))
        (.node "*" (.node "+" (.leaf "b") (.leaf "c")) (.leaf "1")), 13), by omega⟩ := by
    rw [parse_term_loop.eq_def]
    split
    · rename_i tok h0
      rw [show (["p", "*", "q", "*", "(", "(", "b", "+", "c", ")", "*", "1", ")"] :
        List String)[1]? = some "*" from rfl] at h0
      injection h0 with h0e
      subst h0e
      rw [if_pos rfl]
      simp only [h2, h5]
    · rename_i h0
      exact absurd h0 (by decide)
  have h7 : parse_term ["p", "*", "q", "*", "(", "(", "b", "+", "c", ")", "*", "1", ")"] 0 =
      .ok ⟨(.node "*" (.node "*" (.leaf "p") (.leaf "q"))
        (.node "*" (.node "+" (.leaf "b") (.leaf "c")) (.leaf "1")), 13), by omega⟩ := by
    rw [parse_term.eq_def]; simp only [h1, h6]
  have h8 : parse_sum_loop ["p", "*", "q", "*", "(", "(", "b", "+", "c", ")", "*", "1", ")"]
      (.node "*" (.node "*" (.leaf "p") (.leaf "q"))
        (.node "*" (.node "+" (.leaf "b") (.leaf "c")) (.leaf "1"))) 13 =
      .ok ⟨(.node "*" (.node "*" (.leaf "p") (.leaf "q"))
        (.node "*" (.node "+" (.leaf "b") (.leaf "c")) (.leaf "1")), 13), le_refl 13⟩ := by
    rw [parse_sum_loop.eq_def]; rfl
  have h9 : parse_sum ["p", "*", "q", "*", "(", "(", "b", "+", "c", ")", "*", "1", ")"] 0 =
      .ok ⟨(.node "*" (.node "*" (.leaf "p") (.leaf "q"))
        (.node "*" (.node "+" (.leaf "b") (.leaf "c")) (.leaf "1")), 13), by omega⟩ := by
    rw [parse_sum.eq_def]; simp only [h7, h8]
  rw [parse_expression]; simp only [h9]

/-! ## Concrete saturation runs -/

theorem sat_dist : saturation (.node "*" (.leaf "a") (.node "+" (.leaf "b") (.leaf "c"))) =
    .node "+" (.node "*" (.leaf "a") (.leaf "b")) (.node "*" (.leaf "a") (.leaf "c")) := by
  rw [saturation, if_neg (by decide)]
  rw [show rewrite (.node "*" (.leaf "a") (.node "+" (.leaf "b") (.leaf "c"))) =
    .node "+" (.node "*" (.leaf "a") (.leaf "b")) (.node "*" (.leaf "a") (.leaf "c"))
    from by decide]
  rw [saturation, if_pos (by decide)]
  decide

theorem sat_mulone : saturation
    (.node "*" (.node "*" (.leaf "p") (.leaf "q"))
      (.node "*" (.node "+" (.leaf "b") (.leaf "c")) (.leaf "1"))) =
    .node "+" (.node "*" (.node "*" (.leaf "p") (.leaf "q")) (.leaf "b"))
      (.node "*" (.node "*" (.leaf "p") (.leaf "q")) (.leaf "c")) := by
  rw [saturation, if_neg (by decide)]
  rw [show rewrite (.node "*" (.node "*" (.leaf "p") (.leaf "q"))
      (.node "*" (.node "+" (.leaf "b") (.leaf "c")) (.leaf "1"))) =
    .node "+" (.node "*" (.node "*" (.leaf "p") (.leaf "q")) (.leaf "b"))
      (.node "*" (.node "*" (.leaf "p") (.leaf "q")) (.leaf "c")) from by decide]
  rw [saturation, if_pos (by decide)]
  decide

/-- The "nested product over a right-hand sum" pattern the cost claim
excludes, read off the claim's own words: some `*` node whose right operand
is a `+` operator node. -/
def containsMulRightAdd : ASTNode → Bool
  | .leaf _ => false
  | .node v l r =>
    (v = "*" && (match r with | .node "+" _ _ => true | _ => false))
      || containsMulRightAdd l || containsMulRightAdd r

/-! ## The claims -/

/-- Claim C1, counterexample: the input `"(a+b"` has an unclosed
parenthesized group, yet the pipeline does not fail — it parses to the sum
`(+ a b)`.  `parse_factor` returns position `j + 1` after the inner sum
without checking that the skipped token is `")"` (here there is no token at
all at that position). -/
theorem claim1_counterexample :
    tokenize "(a+b" = ["(", "a", "+", "b"] ∧
    parse_expression (tokenize "(a+b") = .ok (.node "+" (.leaf "a") (.leaf "b")) := by
  refine ⟨tokenize_unclosed, ?_⟩
  rw [tokenize_unclosed]
  exact pe_unclosed

/-- Claim C1 (amended): after a `"("` the parser recurses into the sum
level and then returns from position `j + 1` unconditionally — it never
looks at the token at `j`, so a missing `")"` is not detected here.  (An
unclosed group only fails, with `IndexError` rather than a `ValueError`
parse error, when the tokens run out in the middle of the inner
expression, as on `"(a+"`.) -/
theorem claim1_unchecked_close {tokens : List String} {i : Nat} {n : ASTNode} {j : Nat}
    (htok : tokens[i]? = some "(")
    (hp : i + 1 < j)
    (hs : parse_sum tokens (i + 1) = .ok ⟨(n, j), hp⟩) :
    parse_factor tokens i = .ok ⟨(n, j + 1), by omega⟩ := by
  rw [parse_factor.eq_def]
  split
  · rename_i h0
    rw [h0] at htok
    cases htok
  · rename_i token h0
    rw [h0] at htok
    injection htok with he
    subst he
    rw [if_neg (by decide), if_pos rfl, hs]

/-- Claim C1, witness: on `["(", "a"]` the factor returns position `3`,
one past the end of the token list — nothing was checked to be `")"`. -/
theorem claim1_witness :
    parse_factor ["(", "a"] 0 = .ok ⟨(.leaf "a", 3), by omega⟩ :=
  claim1_unchecked_close rfl (by omega) parse_sum_open_a

/-- Claim C2, counterexample: `"a-b"` tokenizes to a sequence containing
`"-"`, yet the parser does not reject it — it returns the leaf `a`
(`parse_expression` drops the final index, so the trailing `"-", "b"` are
silently ignored). -/
theorem claim2_counterexample :
    tokenize "a-b" = ["a", "-", "b"] ∧
    "-" ∈ tokenize "a-b" ∧
    parse_expression (tokenize "a-b") = .ok (.leaf "a") := by
  refine ⟨tokenize_minus, ?_, ?_⟩
  · rw [tokenize_minus]
    decide
  · rw [tokenize_minus]
    exact pe_minus

/-- Claim C2 (amended): a `-` or `/` token is rejected (with
`ValueError: Unexpected token`) exactly when it sits where a factor is
expected; in any other position the parser simply stops consuming input
before it. -/
theorem claim2_rejected_in_factor {tokens : List String} {i : Nat} {tk : String}
    (htok : tokens[i]? = some tk) (hcase : tk = "-" ∨ tk = "/") :
    parse_factor tokens i = .error (.unexpectedToken tk) := by
  rw [parse_factor.eq_def]
  split
  · rename_i h0
    rw [h0] at htok
    cases htok
  · rename_i token h0
    rw [h0] at htok
    injection htok with he
    subst he
    rcases hcase with h | h <;> subst h <;>
      rw [if_neg (by decide), if_neg (by decide)]

/-- Claim C2, witness: `"-"` in factor position raises. -/
theorem claim2_witness :
    parse_factor ["a", "-", "b"] 1 = .error (.unexpectedToken "-") :=
  claim2_rejected_in_factor rfl (Or.inl rfl)

/-- Claim C3, counterexample: on `"a*(b+c)"` the saturated tree indeed
prints as `"((a * b) + (a * c))"`, but its cost is `7`, not `5`, and the
original tree's cost is `5`, not `4` (`cost` counts every node: the
expanded sum has 7 nodes, the original product 5). -/
theorem claim3_counterexample :
    parse_expression (tokenize "a*(b+c)") =
      .ok (.node "*" (.leaf "a") (.node "+" (.leaf "b") (.leaf "c"))) ∧
    saturation (.node "*" (.leaf "a") (.node "+" (.leaf "b") (.leaf "c"))) =
      .node "+" (.node "*" (.leaf "a") (.leaf "b")) (.node "*" (.leaf "a") (.leaf "c")) ∧
    ¬(cost (.node "+" (.node "*" (.leaf "a") (.leaf "b"))
        (.node "*" (.leaf "a") (.leaf "c"))) = 5 ∧
      cost (.node "*" (.leaf "a") (.node "+" (.leaf "b") (.leaf "c"))) = 4) := by
  refine ⟨?_, sat_dist, by decide⟩
  rw [tokenize_dist]
  exact pe_dist

/-- Claim C3 (amended): `"a*(b+c)"` parses to the 5-node product, saturates
to the 7-node tree printing `"((a * b) + (a * c))"` — a case where the
cost increases (from 5 to 7). -/
theorem claim3_amended :
    parse_expression (tokenize "a*(b+c)") =
      .ok (.node "*" (.leaf "a") (.node "+" (.leaf "b") (.leaf "c"))) ∧
    saturation (.node "*" (.leaf "a") (.node "+" (.leaf "b") (.leaf "c"))) =
      .node "+" (.node "*" (.leaf "a") (.leaf "b")) (.node "*" (.leaf "a") (.leaf "c")) ∧
    print_ast (.node "+" (.node "*" (.leaf "a") (.leaf "b"))
      (.node "*" (.leaf "a") (.leaf "c"))) = "((a * b) + (a * c))" ∧
    cost (.node "+" (.node "*" (.leaf "a") (.leaf "b"))
      (.node "*" (.leaf "a") (.leaf "c"))) = 7 ∧
    cost (.node "*" (.leaf "a") (.node "+" (.leaf "b") (.leaf "c"))) = 5 := by
  refine ⟨?_, sat_dist, by decide, by decide, by decide⟩
  rw [tokenize_dist]
  exact pe_dist

/-- Claim C4, counterexample: the parsed tree of `"p*q*((b+c)*1)"` contains
no product-over-a-right-hand-sum pattern (`containsMulRightAdd` is false:
the only `+` sits as a *left* operand), yet saturation raises the cost from
9 to 11 — the `x*1` rule deletes the `1` and thereby *creates* the pattern
mid-run, and the distributive expansion then fires. -/
theorem claim4_counterexample :
    parse_expression (tokenize "p*q*((b+c)*1)") =
      .ok (.node "*" (.node "*" (.leaf "p") (.leaf "q"))
        (.node "*" (.node "+" (.leaf "b") (.leaf "c")) (.leaf "1"))) ∧
    containsMulRightAdd (.node "*" (.node "*" (.leaf "p") (.leaf "q"))
      (.node "*" (.node "+" (.leaf "b") (.leaf "c")) (.leaf "1"))) = false ∧
    cost (.node "*" (.node "*" (.leaf "p") (.leaf "q"))
      (.node "*" (.node "+" (.leaf "b") (.leaf "c")) (.leaf "1"))) = 9 ∧
    cost (saturation (.node "*" (.node "*" (.leaf "p") (.leaf "q"))
      (.node "*" (.node "+" (.leaf "b") (.leaf "c")) (.leaf "1")))) = 11 ∧
    ¬(cost (saturation (.node "*" (.node "*" (.leaf "p") (.leaf "q"))
        (.node "*" (.node "+" (.leaf "b") (.leaf "c")) (.leaf "1")))) ≤
      cost (.node "*" (.node "*" (.leaf "p") (.leaf "q"))
        (.node "*" (.node "+" (.leaf "b") (.leaf "c")) (.leaf "1")))) := by
  refine ⟨?_, by decide, by decide, ?_, ?_⟩
  · rw [tokenize_mulone]
    exact pe_mulone
  · rw [sat_mulone]
    decide
  · rw [sat_mulone]
    decide

/-- Claim C4 (amended): the hypothesis that actually guarantees
`cost (saturation t) ≤ cost t` is hereditary absence of `+` below `*`: no
`+` operator node anywhere inside either operand of any `*` node
(`noAddUnderMul`).  Then no pass can ever expose a right-hand sum to a
product, the distributive rule never fires, and every pass is
non-increasing. -/
theorem claim4_cost_nonincreasing {t : ASTNode} (h : noAddUnderMul t = true) :
    cost (saturation t) ≤ cost t :=
  cost_saturation_le_of_noAddUnderMul h

/-- Claim C4, witness: a product of two leaves. -/
theorem claim4_witness :
    noAddUnderMul (.node "*" (.leaf "x") (.leaf "2")) = true ∧
    cost (saturation (.node "*" (.leaf "x") (.leaf "2"))) ≤
      cost (.node "*" (.leaf "x") (.leaf "2")) :=
  ⟨by decide, claim4_cost_nonincreasing (by decide)⟩

/-- Claim C5: on every tree the parser produces (indeed on every tree) the
saturation loop terminates: some finite number `n` of rewrite passes
reaches a fixpoint, and `saturation` returns that `n`-th iterate. -/
theorem claim5_terminates {tokens : List String} {t : ASTNode}
    (h : parse_expression tokens = .ok t) :
    ∃ n : Nat, rewrite^[n + 1] t = rewrite^[n] t ∧ saturation t = rewrite^[n] t :=
  saturation_reaches_fixpoint t

/-- Claim C5, witness. -/
theorem claim5_witness :
    ∃ n : Nat, rewrite^[n + 1] (ASTNode.leaf "x") = rewrite^[n] (ASTNode.leaf "x") ∧
      saturation (ASTNode.leaf "x") = rewrite^[n] (ASTNode.leaf "x") :=
  claim5_terminates pe_one_leaf

/-- Claim C6: saturating an already-saturated parse result returns a
structurally equal tree (`ASTNode.__eq__` is structural equality, which is
equality of the embedded values). -/
theorem claim6_idempotent {tokens : List String} {t : ASTNode}
    (h : parse_expression tokens = .ok t) :
    saturation (saturation t) = saturation t :=
  saturation_idem t

/-- Claim C6, witness. -/
theorem claim6_witness :
    saturation (saturation (ASTNode.leaf "x")) = saturation (ASTNode.leaf "x") :=
  claim6_idempotent pe_one_leaf

/-- Claim C7: printing a parser-produced tree, re-tokenizing and re-parsing
recovers a structurally equal tree — printing fully parenthesizes, so the
whole tree is re-read as a single factor. -/
theorem claim7_roundtrip {tokens : List String} {t : ASTNode}
    (h : parse_expression tokens = .ok t) :
    parse_expression (tokenize (print_ast t)) = .ok t := by
  have hG := parse_expression_good h
  rw [tokenize_print_good hG]
  exact parse_expression_flat hG

/-- Claim C7, witness. -/
theorem claim7_witness :
    parse_expression (tokenize (print_ast (ASTNode.leaf "x"))) = .ok (ASTNode.leaf "x") :=
  claim7_roundtrip pe_one_leaf

/-- Claim C8: on parser-produced trees one pass of `rewrite` is exactly the
specification's ordered rule table: children are fully rewritten first,
then the seven rules are tried in priority order (`x+0`, `0+x`, `x*1`,
`1*x`, `x*0`/`0*x`, constant folding, distributive expansion), the first
match returns immediately, and a node with no match is returned unchanged
with its rewritten children (`specRewrite` is that table, verbatim). -/
theorem claim8_rule_table {tokens : List String} {t : ASTNode}
    (h : parse_expression tokens = .ok t) :
    rewrite t = specRewrite t :=
  rewrite_eq_specRewrite (parse_expression_good h)

/-- Claim C8, witness. -/
theorem claim8_witness : rewrite (ASTNode.leaf "x") = specRewrite (ASTNode.leaf "x") :=
  claim8_rule_table pe_one_leaf

/-- Claim C9: on every tree a successful parse produces, the Python-object
models of the rewrite pass, the cost function and the saturation loop never
raise (`none` models a raised exception): `rewriteP` and `costP` return
`some`, agreeing with the total models, and the loop relation terminates in
the total model's value. -/
theorem claim9_no_failure {tokens : List String} {t : ASTNode}
    (h : parse_expression tokens = .ok t) :
    rewriteP (toPy t) = some (toPy (rewrite t)) ∧
    costP (toPy t) = some (cost t) ∧
    SatRel (toPy t) (some (toPy (saturation t))) :=
  ⟨rewriteP_toPy (parse_expression_good h), costP_toPy t,
    satRel_toPy (parse_expression_good h)⟩

/-- Claim C9, witness. -/
theorem claim9_witness :
    rewriteP (toPy (ASTNode.leaf "x")) = some (toPy (rewrite (ASTNode.leaf "x"))) ∧
    costP (toPy (ASTNode.leaf "x")) = some (cost (ASTNode.leaf "x")) ∧
    SatRel (toPy (ASTNode.leaf "x")) (some (toPy (saturation (ASTNode.leaf "x")))) :=
  claim9_no_failure pe_one_leaf

/-- Claim C10: `saturation` deep-copies its argument and mutates only the
copy, so the caller's tree is untouched: in the heap model, a pointer that
represented tree `t` before a full run of `saturation` still represents
exactly `t` after it. -/
theorem claim10_original_unchanged {H : List PyRec} {ast : Nat} {t : ASTNode}
    {H' : List PyRec} {q : Nat}
    (hrep : HRepr H ast t) (hrun : SatRunH H ast H' q) : HRepr H' ast t :=
  saturation_frame hrep hrun

/-- Claim C10, witness: a one-leaf heap; the run allocates the copies at
addresses 1 and 2 and leaves address 0 holding the original. -/
theorem claim10_witness :
    HRepr [⟨"x", none, none⟩, ⟨"x", none, none⟩, ⟨"x", none, none⟩] 0 (.leaf "x") :=
  @claim10_original_unchanged [⟨"x", none, none⟩] 0 (.leaf "x")
    [⟨"x", none, none⟩, ⟨"x", none, none⟩, ⟨"x", none, none⟩] 1
    (HRepr.leaf rfl)
    ⟨1, [⟨"x", none, none⟩, ⟨"x", none, none⟩], [(0, 1)], 1, rfl,
      SatLoop.last 1 1 1 rfl rfl rfl⟩
